import Mathlib

/-!
Verification of the voice_command repository's core components against its
natural-language specification.

Modelling conventions (shallow embedding):
- C++ `std::string` is modelled as `List Char` (`LStr`); the byte-level
  `std::tolower` / `std::isspace` / `std::ispunct` of the default C locale are
  modelled on the ASCII range, which is the range the pipeline produces.
- C++ `float` / `double` quantities (confidences, energies, parameter bounds)
  are modelled as exact rationals `ℚ`; floating-point rounding is abstracted.
- Fallible accessors (which throw `std::invalid_argument` in C++) are
  modelled as `Option`-returning functions, `none` meaning the exception.
- Stateful objects are modelled by explicit state passing.
-/

namespace VoiceCommand

attribute [local semireducible] Rat.add Rat.mul Rat.inv Rat.sub Rat.ofScientific

set_option maxRecDepth 100000

/-- C++ strings viewed as lists of characters. -/
abbrev LStr := List Char

/-- Model of `std::tolower` in the default C locale (ASCII range). -/
def toLowerChar (c : Char) : Char :=
  if 'A' ≤ c ∧ c ≤ 'Z' then Char.ofNat (c.toNat + 32) else c

/-- Model of the `ToLower` helper shared by the C++ translation units:
it maps `std::tolower` over the string. -/
def toLowerStr (s : LStr) : LStr := s.map toLowerChar

/-- The whitespace set of `std::isspace` in the C locale:
space, \t, \n, \v, \f, \r. -/
def isCSpace (c : Char) : Bool :=
  c = ' ' || c = '\t' || c = '\n' || c = Char.ofNat 11 || c = Char.ofNat 12 || c = '\r'

/-- The whitespace set used by `RuleBasedNluEngine`'s `Trim` helper,
which is `" \t\n\r"` (note: no \v, \f). -/
def isTrimSpace (c : Char) : Bool :=
  c = ' ' || c = '\t' || c = '\n' || c = '\r'

/-- `std::isdigit` (C locale). -/
def isDigitC (c : Char) : Bool := '0' ≤ c && c ≤ '9'

/-- `std::ispunct` (C locale): ASCII graphical characters that are not
alphanumeric. -/
def isPunctC (c : Char) : Bool :=
  (33 ≤ c.toNat && c.toNat ≤ 47) || (58 ≤ c.toNat && c.toNat ≤ 64) ||
  (91 ≤ c.toNat && c.toNat ≤ 96) || (123 ≤ c.toNat && c.toNat ≤ 126)

/-- Model of the NLU `Trim` helper: remove leading and trailing characters
of `" \t\n\r"` (via `find_first_not_of` / `find_last_not_of`). -/
def trimStr (s : LStr) : LStr :=
  ((s.dropWhile isTrimSpace).reverse.dropWhile isTrimSpace).reverse

/-- Model of `RuleBasedNluEngine::Normalize`: `ToLower(Trim(str))`. -/
def normalize (s : LStr) : LStr := toLowerStr (trimStr s)

/-- Model of `std::string::find(t)`: the first index at which `t` occurs as a
substring, `none` for `npos`. `find` of the empty string is `some 0`. -/
def strFind (s t : LStr) : Option Nat :=
  match s with
  | [] => if t = [] then some 0 else none
  | _ :: s' =>
    if t.isPrefixOf s then some 0
    else (strFind s' t).map (· + 1)

/-- Model of the `ContainsIgnoreCase` helper: lowercase both strings and
test substring containment. -/
def containsIgnoreCase (text sub : LStr) : Bool :=
  (strFind (toLowerStr text) (toLowerStr sub)).isSome

/-- Model of `RuleBasedNluEngine::FindKeyword`: lowercase both strings and
return the position of the first occurrence. -/
def findKeyword (text keyword : LStr) : Option Nat :=
  strFind (toLowerStr text) (toLowerStr keyword)

/-- Numeric value of a digit string (the accumulation `strtol`/`strtod`
perform on the digit sequence). -/
def digitsVal (ds : LStr) : Nat :=
  ds.foldl (fun a c => a * 10 + (c.toNat - 48)) 0

/-! ### ParamValue (src/command/context/commandcontext.cpp)

`ParamValue` carries a raw string.  `AsInt`/`AsDouble` call `std::stoi` /
`std::stod` and additionally require that the whole string was consumed
(`pos == raw_value_.size()`); any failure surfaces as `std::invalid_argument`,
modelled as `none`. -/

/-- Optional sign at the head of a number, as `strtol`/`strtod` consume it:
returns the sign factor and the rest. -/
def splitSign (t : LStr) : Int × LStr :=
  match t with
  | c :: r => if c = '-' then (-1, r) else if c = '+' then (1, r) else (1, t)
  | [] => (1, [])

/-- Model of `std::stoi`'s parse (strtol, base 10): skip C-locale whitespace,
an optional sign, then a non-empty digit run.  Returns the parsed value and
the *unconsumed* remainder of the string (the C++ `pos` output equals the
input length minus the remainder length).  `none` models no conversion. -/
def stoiParse (s : LStr) : Option (Int × LStr) :=
  let sg := splitSign (s.dropWhile isCSpace)
  let ds := sg.2.takeWhile isDigitC
  if ds = [] then none else some (sg.1 * (digitsVal ds : Int), sg.2.dropWhile isDigitC)

/-- `int` range of the target platform (32-bit). -/
def intMin : Int := -(2 ^ 31)

/-- Largest 32-bit `int`. -/
def intMax : Int := 2 ^ 31 - 1

/-- Model of `ParamValue::AsInt`: `std::stoi` must consume the entire raw
string and the value must be representable as `int` (otherwise
`std::out_of_range`, which the method also converts into a failure). -/
def asInt (s : LStr) : Option Int :=
  match stoiParse s with
  | none => none
  | some (v, rest) =>
    if rest = [] ∧ intMin ≤ v ∧ v ≤ intMax then some v else none

/-- The optional fractional part after the integer digits: a `.` followed by
a (possibly empty) digit run.  Returns the fraction digits and the rest. -/
def fracSplit (r2 : LStr) : LStr × LStr :=
  match r2 with
  | c :: rr => if c = '.' then (rr.takeWhile isDigitC, rr.dropWhile isDigitC) else ([], r2)
  | [] => ([], [])

/-- The optional exponent part: `e`/`E`, optional sign, digits.  As in
`strtod`, an `e` that is not followed by digits is not consumed. -/
def stodExpApply (mant : ℚ) (r3 : LStr) : ℚ × LStr :=
  match r3 with
  | c :: er =>
    if c = 'e' ∨ c = 'E' then
      let es := splitSign er
      let ed := es.2.takeWhile isDigitC
      if ed = [] then (mant, r3)
      else (mant * (10 : ℚ) ^ (es.1 * (digitsVal ed : Int)), es.2.dropWhile isDigitC)
    else (mant, r3)
  | [] => (mant, [])

/-- Model of `std::stod`'s parse restricted to the decimal subset of its
grammar: optional whitespace and sign, a mantissa `digits [. digits]` or
`. digits`, and an optional exponent.  Hexadecimal floats and the `inf`/`nan`
forms are outside this rational-valued model, and binary64 rounding/overflow
is abstracted to exact rationals.  Returns the value and the unconsumed
remainder. -/
def stodParse (s : LStr) : Option (ℚ × LStr) :=
  let sg := splitSign (s.dropWhile isCSpace)
  let ip := sg.2.takeWhile isDigitC
  let r2 := sg.2.dropWhile isDigitC
  let fr := fracSplit r2
  if ip = [] ∧ fr.1 = [] then none
  else
    let mant : ℚ :=
      (sg.1 : ℚ) * ((digitsVal ip : ℚ) + (digitsVal fr.1 : ℚ) / (10 : ℚ) ^ fr.1.length)
    some (stodExpApply mant fr.2)

/-- Model of `ParamValue::AsDouble`: `std::stod` must consume the whole raw
string. -/
def asDouble (s : LStr) : Option ℚ :=
  match stodParse s with
  | none => none
  | some (v, rest) => if rest = [] then some v else none

/-- Model of `ParamValue::AsBool`: lowercase the raw value and accept exactly
`true`/`yes`/`1` (as `true`) and `false`/`no`/`0` (as `false`). -/
def asBool (s : LStr) : Option Bool :=
  let lower := toLowerStr s
  if lower = "true".toList ∨ lower = "yes".toList ∨ lower = "1".toList then some true
  else if lower = "false".toList ∨ lower = "no".toList ∨ lower = "0".toList then some false
  else none

/-- Model of `ParamValue::AsString`: the raw string, unchanged. -/
def asString (s : LStr) : LStr := s

/-! ### Spec-side clean-parse definitions (from the specification's words)

The spec says the typed accessors "fail with `InvalidParam` if the whole raw
string does not parse cleanly".  The following definitions characterise a
*whole-string* clean parse directly, without going through a prefix parse
plus a consumed-position check. -/

/-- Spec-side: the whole string is an integer literal — optional whitespace,
optional sign, then digits only (and the value fits a 32-bit `int`). -/
def specCleanInt (s : LStr) : Option Int :=
  let sg := splitSign (s.dropWhile isCSpace)
  if sg.2 ≠ [] ∧ sg.2.all isDigitC then
    let v := sg.1 * (digitsVal sg.2 : Int)
    if intMin ≤ v ∧ v ≤ intMax then some v else none
  else none

/-- Spec-side: the whole string is a decimal real literal — optional
whitespace and sign, mantissa with at least one digit, and an optional
complete exponent reaching the end of the string. -/
def specCleanDouble (s : LStr) : Option ℚ :=
  let sg := splitSign (s.dropWhile isCSpace)
  let ip := sg.2.takeWhile isDigitC
  let r2 := sg.2.dropWhile isDigitC
  let fr := fracSplit r2
  if ip = [] ∧ fr.1 = [] then none
  else
    let mant : ℚ :=
      (sg.1 : ℚ) * ((digitsVal ip : ℚ) + (digitsVal fr.1 : ℚ) / (10 : ℚ) ^ fr.1.length)
    match fr.2 with
    | [] => some mant
    | c :: er =>
      if c = 'e' ∨ c = 'E' then
        let es := splitSign er
        let ed := es.2.takeWhile isDigitC
        if ed ≠ [] ∧ es.2.dropWhile isDigitC = [] then
          some (mant * (10 : ℚ) ^ (es.1 * (digitsVal ed : Int)))
        else none
      else none

/-- Spec-side: booleans accept case-insensitive true/yes/1 and false/no/0. -/
def specBool (s : LStr) : Option Bool :=
  if toLowerStr s ∈ ["true".toList, "yes".toList, "1".toList] then some true
  else if toLowerStr s ∈ ["false".toList, "no".toList, "0".toList] then some false
  else none

/-- A list whose `dropWhile` is empty is its own `takeWhile`. -/
theorem takeWhile_of_dropWhile_nil {p : Char → Bool} {l : LStr}
    (h : l.dropWhile p = []) : l.takeWhile p = l := by
  have := List.takeWhile_append_dropWhile (p := p) (l := l)
  rw [h, List.append_nil] at this
  exact this

/-- `dropWhile` is empty exactly when every element satisfies the predicate. -/
theorem dropWhile_nil_iff_all {p : Char → Bool} {l : LStr} :
    l.dropWhile p = [] ↔ l.all p := by
  rw [List.all_eq_true, List.dropWhile_eq_nil_iff]

/-- Core of the C5 equivalence for integers: consuming the whole remainder is
the same as the remainder being a non-empty all-digit string. -/
theorem stoi_whole_iff (k : Int) (r : LStr) :
    (match (if r.takeWhile isDigitC = [] then none
            else some (k * (digitsVal (r.takeWhile isDigitC) : Int), r.dropWhile isDigitC)) with
     | none => none
     | some (v, rest) => if rest = [] ∧ intMin ≤ v ∧ v ≤ intMax then some v else none)
    = (if r ≠ [] ∧ r.all isDigitC then
         (if intMin ≤ k * (digitsVal r : Int) ∧ k * (digitsVal r : Int) ≤ intMax then
            some (k * (digitsVal r : Int)) else none)
       else none) := by
  by_cases hds : r.takeWhile isDigitC = []
  · have hno : ¬(r ≠ [] ∧ r.all isDigitC = true) := by
      rintro ⟨hne, hall⟩
      have hd : r.dropWhile isDigitC = [] := dropWhile_nil_iff_all.mpr hall
      have htw := takeWhile_of_dropWhile_nil hd
      exact hne (by rw [← htw, hds])
    rw [if_pos hds, if_neg hno]
  · by_cases hd : r.dropWhile isDigitC = []
    · have htw := takeWhile_of_dropWhile_nil hd
      have hall : r.all isDigitC = true := dropWhile_nil_iff_all.mp hd
      have hne : r ≠ [] := by
        intro h
        exact hds (by rw [h]; rfl)
      rw [if_neg hds, if_pos ⟨hne, hall⟩]
      rw [htw, hd]
      simp
    · have hno : ¬(r ≠ [] ∧ r.all isDigitC = true) := by
        rintro ⟨_, hall⟩
        exact hd (dropWhile_nil_iff_all.mpr hall)
      rw [if_neg hds, if_neg hno]
      have hfc : ¬(r.dropWhile isDigitC = [] ∧
          intMin ≤ k * (digitsVal (r.takeWhile isDigitC) : Int) ∧
          k * (digitsVal (r.takeWhile isDigitC) : Int) ≤ intMax) := fun hc => hd hc.1
      simp only [if_neg hfc]

/-- Claim C5, accessor equivalence for `AsInt`. -/
theorem asInt_eq_specCleanInt (s : LStr) : asInt s = specCleanInt s := by
  have := stoi_whole_iff (splitSign (s.dropWhile isCSpace)).1 (splitSign (s.dropWhile isCSpace)).2
  simpa [asInt, stoiParse, specCleanInt] using this

/-- Claim C5, accessor equivalence for `AsDouble`. -/
theorem asDouble_eq_specCleanDouble (s : LStr) : asDouble s = specCleanDouble s := by
  simp only [asDouble, stodParse, specCleanDouble]
  by_cases hm : (splitSign (s.dropWhile isCSpace)).2.takeWhile isDigitC = [] ∧
      (fracSplit ((splitSign (s.dropWhile isCSpace)).2.dropWhile isDigitC)).1 = []
  · rw [if_pos hm, if_pos hm]
  · rw [if_neg hm, if_neg hm]
    rcases hr3 : (fracSplit ((splitSign (s.dropWhile isCSpace)).2.dropWhile isDigitC)).2
      with _ | ⟨c, er⟩
    · simp [stodExpApply]
    · by_cases he : c = 'e' ∨ c = 'E'
      · simp only [stodExpApply]
        rw [if_pos he, if_pos he]
        by_cases hed : (splitSign er).2.takeWhile isDigitC = []
        · rw [if_pos hed]
          have h1 : ¬(c :: er = ([] : LStr)) := by simp
          have h2 : ¬((splitSign er).2.takeWhile isDigitC ≠ [] ∧
              (splitSign er).2.dropWhile isDigitC = []) := fun hc => hc.1 hed
          rw [if_neg h1, if_neg h2]
        · rw [if_neg hed]
          by_cases hrest : (splitSign er).2.dropWhile isDigitC = []
          · rw [if_pos hrest, if_pos (And.intro hed hrest)]
          · have h2 : ¬((splitSign er).2.takeWhile isDigitC ≠ [] ∧
                (splitSign er).2.dropWhile isDigitC = []) := fun hc => hrest hc.2
            rw [if_neg hrest, if_neg h2]
      · simp only [stodExpApply]
        rw [if_neg he, if_neg he]
        have h1 : ¬(c :: er = ([] : LStr)) := by simp
        rw [if_neg h1]

/-- Claim C5, accessor equivalence for `AsBool`. -/
theorem asBool_eq_specBool (s : LStr) : asBool s = specBool s := by
  unfold asBool specBool
  simp only [List.mem_cons, List.not_mem_nil, or_false]

/-- Claim C5: `AsInt`/`AsDouble` return the parsed number exactly when the
entire raw string parses cleanly as an integer (resp. decimal real) and fail
otherwise; `AsBool` accepts exactly case-insensitive true/yes/1 and
false/no/0; `AsString` returns the raw string unchanged. -/
theorem paramValue_accessors_spec :
    ∀ s : LStr, asString s = s ∧ asInt s = specCleanInt s ∧
      asDouble s = specCleanDouble s ∧ asBool s = specBool s :=
  fun s => ⟨rfl, asInt_eq_specCleanInt s, asDouble_eq_specCleanDouble s, asBool_eq_specBool s⟩

/-! ### Levenshtein distance and `ComputeSimilarity`
(src/command/nlu/rule_based_nlu_engine.cpp)

The C++ code fills the classical dynamic-programming table
`dp[i][j] = distance(a[0..i), b[0..j))` row by row and returns `dp[m][n]`.
We model the row computation faithfully (`nextRow`, `levDist`) and prove it
equal to the textbook recursive Levenshtein distance `lev`. -/

/-- The textbook Levenshtein edit distance (unit costs), by recursion on the
heads of both lists. -/
def lev : LStr → LStr → ℕ
  | [], ys => ys.length
  | x :: xs, [] => (x :: xs).length
  | x :: xs, y :: ys =>
    min (lev xs (y :: ys) + 1)
      (min (lev (x :: xs) ys + 1) (lev xs ys + (if x = y then 0 else 1)))

theorem lev_nil_left (ys : LStr) : lev [] ys = ys.length := by
  simp [lev]

theorem lev_nil_right (xs : LStr) : lev xs [] = xs.length := by
  cases xs <;> simp [lev]

theorem lev_cons_cons (x : Char) (xs : LStr) (y : Char) (ys : LStr) :
    lev (x :: xs) (y :: ys) =
      min (lev xs (y :: ys) + 1)
        (min (lev (x :: xs) ys + 1) (lev xs ys + (if x = y then 0 else 1))) := by
  simp [lev]

theorem lev_self (a : LStr) : lev a a = 0 := by
  induction a with
  | nil => simp [lev]
  | cons x xs ih => simp [lev_cons_cons, ih]

theorem cost_symm (x y : Char) :
    (if x = y then (0 : ℕ) else 1) = (if y = x then 0 else 1) := by
  by_cases h : x = y
  · rw [if_pos h, if_pos h.symm]
  · rw [if_neg h, if_neg (fun hyx : y = x => h hyx.symm)]

theorem lev_symm (a b : LStr) : lev a b = lev b a := by
  induction a, b using lev.induct with
  | case1 ys => rw [lev_nil_left, lev_nil_right]
  | case2 x xs => rw [lev_nil_left, lev_nil_right]
  | case3 x xs y ys ih1 ih2 ih3 =>
    rw [lev_cons_cons, lev_cons_cons, ih1, ih2, ih3, cost_symm]
    omega

/-- The last-character recurrence for `lev` against a singleton. -/
theorem lev_one_snoc (x y : Char) (bs : LStr) :
    lev [x] (bs ++ [y]) =
      min (lev [] (bs ++ [y]) + 1)
        (min (lev [x] bs + 1) (lev [] bs + (if x = y then 0 else 1))) := by
  induction bs with
  | nil =>
    rw [List.nil_append, lev_cons_cons]
  | cons b bs ih =>
    simp only [List.cons_append, lev_cons_cons]
    rw [ih]
    simp only [lev_nil_left, List.length_append, List.length_cons, List.length_nil]
    generalize (if x = y then (0 : ℕ) else 1) = c1
    generalize (if x = b then (0 : ℕ) else 1) = c2
    omega

/-- A pure min-algebra identity used in the inductive step of `lev_snoc`:
both sides are the minimum of the same nine affine terms. -/
theorem minGrid (A1 A2 A3 A4 A5 A6 A7 A8 A9 c1 c2 : ℕ) :
    ((A1 + 1) ⊓ ((A2 + 1) ⊓ (A3 + c1)) + 1) ⊓
      (((A4 + 1) ⊓ ((A5 + 1) ⊓ (A6 + c1)) + 1) ⊓
        ((A7 + 1) ⊓ ((A8 + 1) ⊓ (A9 + c1)) + c2)) =
    ((A1 + 1) ⊓ ((A4 + 1) ⊓ (A7 + c2)) + 1) ⊓
      (((A2 + 1) ⊓ ((A5 + 1) ⊓ (A8 + c2)) + 1) ⊓
        ((A3 + 1) ⊓ ((A6 + 1) ⊓ (A9 + c2)) + c1)) := by
  have h2 : ∀ u v w c : ℕ, u ⊓ (v ⊓ w) + c = (u + c) ⊓ ((v + c) ⊓ (w + c)) := by
    intro u v w c
    omega
  rw [h2, h2, h2, h2, h2, h2]
  apply le_antisymm <;> simp only [le_min_iff, min_le_iff] <;> omega

/-- The last-character recurrence for `lev`. -/
theorem lev_snoc (x y : Char) (as bs : LStr) :
    lev (as ++ [x]) (bs ++ [y]) =
      min (lev as (bs ++ [y]) + 1)
        (min (lev (as ++ [x]) bs + 1) (lev as bs + (if x = y then 0 else 1))) := by
  induction as, bs using lev.induct with
  | case1 bs =>
    simp only [List.nil_append]
    exact lev_one_snoc x y bs
  | case2 a as =>
    simp only [List.nil_append]
    rw [lev_symm ((a :: as) ++ [x]) [y], lev_one_snoc y x (a :: as)]
    rw [lev_symm [y] (a :: as), cost_symm y x]
    simp only [lev_nil_left, lev_nil_right, List.length_append, List.length_cons,
      List.length_nil]
    generalize (if x = y then (0 : ℕ) else 1) = c
    omega
  | case3 a as b bs ih1 ih2 ih3 =>
    simp only [List.cons_append] at ih1 ih2 ih3 ⊢
    rw [lev_cons_cons a _ b _, ih1, ih2, ih3,
      lev_cons_cons a as b _, lev_cons_cons a _ b bs, lev_cons_cons a as b bs]
    exact minGrid _ _ _ _ _ _ _ _ _ _ _

/-- Levenshtein distance is invariant under reversing both strings. -/
theorem lev_reverse (a b : LStr) : lev a.reverse b.reverse = lev a b := by
  induction a, b using lev.induct with
  | case1 ys => rw [List.reverse_nil, lev_nil_left, lev_nil_left, List.length_reverse]
  | case2 x xs => rw [List.reverse_nil, lev_nil_right, lev_nil_right, List.length_reverse]
  | case3 x xs y ys ih1 ih2 ih3 =>
    rw [List.reverse_cons, List.reverse_cons, lev_snoc, ← List.reverse_cons,
      ← List.reverse_cons, ih1, ih2, ih3, lev_cons_cons]

/-- One inner step of the C++ DP loop `for j = 1..n`: given the diagonal entry
`dp[i-1][j-1]`, the rest of the previous row `dp[i-1][j..]`, the remaining
column characters of `b`, and the entry just computed `dp[i][j-1]`, produce
the entries `dp[i][j..]`.  The cell formula is the C++
`min({dp[i-1][j] + 1, dp[i][j-1] + 1, dp[i-1][j-1] + cost})`. -/
def nextRowGo (x : Char) : ℕ → List ℕ → LStr → ℕ → List ℕ
  | diag, a :: as, c :: cs, leftVal =>
    min (a + 1) (min (leftVal + 1) (diag + (if x = c then 0 else 1))) ::
      nextRowGo x a as cs (min (a + 1) (min (leftVal + 1) (diag + (if x = c then 0 else 1))))
  | _, _, _, _ => []

/-- One outer step of the C++ DP loop `for i = 1..m`: compute row `i` from row
`i-1`; the first entry is `dp[i][0] = i = dp[i-1][0] + 1`. -/
def nextRow (x : Char) (prev : List ℕ) (b : LStr) : List ℕ :=
  match prev with
  | [] => []
  | d :: ds => (d + 1) :: nextRowGo x d ds b (d + 1)

/-- The C++ Levenshtein table of `ComputeSimilarity`, row by row; the result
is `dp[m][n]`, the last entry of the final row (row 0 is `0, 1, ..., n`). -/
def levDist (a b : LStr) : ℕ :=
  ((a.foldl (fun row x => nextRow x row b) (List.range (b.length + 1))).getLast?).getD 0

/-- The contents of the DP row after processing a prefix of `a` whose
reversal is `q`: entry `j` is the distance between the processed prefix and
`b.take j` (stated via `lev` on reversals). -/
def rowSpec (b : LStr) (q : LStr) : List ℕ :=
  (List.range (b.length + 1)).map (fun j => lev q ((b.take j).reverse))

theorem take_succ_reverse {b : LStr} {j : ℕ} (h : j < b.length) :
    (b.take (j + 1)).reverse = b[j] :: (b.take j).reverse := by
  rw [List.take_succ]
  rw [List.getElem?_eq_getElem h]
  simp [List.reverse_append]

set_option maxRecDepth 8000 in
theorem nextRowGo_spec (x : Char) (b : LStr) (q : LStr) :
    ∀ (cs : LStr) (j0 : ℕ), cs = b.drop j0 →
      nextRowGo x (lev q ((b.take j0).reverse))
        ((List.range cs.length).map (fun t => lev q ((b.take (j0 + 1 + t)).reverse)))
        cs
        (lev (x :: q) ((b.take j0).reverse))
      = (List.range cs.length).map (fun t => lev (x :: q) ((b.take (j0 + 1 + t)).reverse)) := by
  intro cs
  induction cs with
  | nil =>
    intro j0 _
    rfl
  | cons c cs' ih =>
    intro j0 hcs
    have hj0 : j0 < b.length := by
      by_contra hge
      rw [List.drop_eq_nil_of_le (by omega)] at hcs
      exact List.cons_ne_nil c cs' hcs
    have hdecomp : c :: cs' = b[j0] :: b.drop (j0 + 1) := by
      rw [hcs, List.drop_eq_getElem_cons hj0]
    have hc : c = b[j0] := (List.cons_eq_cons.mp hdecomp).1
    have hcs' : cs' = b.drop (j0 + 1) := (List.cons_eq_cons.mp hdecomp).2
    have harith : ∀ t : ℕ, j0 + 1 + (t + 1) = j0 + 1 + 1 + t := by omega
    have hcell :
        min (lev q ((b.take (j0 + 1)).reverse) + 1)
          (min (lev (x :: q) ((b.take j0).reverse) + 1)
            (lev q ((b.take j0).reverse) + (if x = c then 0 else 1)))
        = lev (x :: q) ((b.take (j0 + 1)).reverse) := by
      rw [take_succ_reverse hj0, ← hc, lev_cons_cons]
    rw [List.length_cons, List.range_succ_eq_map, List.map_cons, List.map_map,
      List.map_cons, List.map_map]
    simp only [Function.comp_def, Nat.add_zero, Nat.succ_eq_add_one]
    have hmapeq :
        (List.range cs'.length).map (fun t => lev q ((b.take (j0 + 1 + (t + 1))).reverse))
        = (List.range cs'.length).map (fun t => lev q ((b.take (j0 + 1 + 1 + t)).reverse)) :=
      List.map_congr_left (fun t _ => by rw [harith t])
    have hmapeq2 :
        (List.range cs'.length).map (fun t => lev (x :: q) ((b.take (j0 + 1 + (t + 1))).reverse))
        = (List.range cs'.length).map (fun t => lev (x :: q) ((b.take (j0 + 1 + 1 + t)).reverse)) :=
      List.map_congr_left (fun t _ => by rw [harith t])
    rw [hmapeq, hmapeq2, nextRowGo, hcell, ih (j0 + 1) hcs']

theorem nextRow_spec (x : Char) (b : LStr) (q : LStr) :
    nextRow x (rowSpec b q) b = rowSpec b (x :: q) := by
  unfold rowSpec
  rw [List.range_succ_eq_map, List.map_cons, List.map_map, List.map_cons, List.map_map]
  rw [nextRow]
  have h0 : lev q ((b.take 0).reverse) = q.length := by
    simp [lev_nil_right]
  have h0x : lev q ((b.take 0).reverse) + 1 = lev (x :: q) ((b.take 0).reverse) := by
    simp [lev_nil_right]
  have hgo := nextRowGo_spec x b q b 0 (by simp)
  have harith : ∀ t : ℕ, 0 + 1 + t = t + 1 := by omega
  have hmap1 :
      (List.range b.length).map (fun t => lev q ((b.take (0 + 1 + t)).reverse))
      = (List.range b.length).map ((fun j => lev q ((b.take j).reverse)) ∘ Nat.succ) := by
    apply List.map_congr_left
    intro t _
    simp only [Function.comp]
    rw [harith t]
  have hmap2 :
      (List.range b.length).map (fun t => lev (x :: q) ((b.take (0 + 1 + t)).reverse))
      = (List.range b.length).map ((fun j => lev (x :: q) ((b.take j).reverse)) ∘ Nat.succ) := by
    apply List.map_congr_left
    intro t _
    simp only [Function.comp]
    rw [harith t]
  rw [← hmap2, ← hgo, h0x, hmap1]

theorem foldl_rows (b : LStr) :
    ∀ (rest : LStr) (q : LStr),
      rest.foldl (fun row x => nextRow x row b) (rowSpec b q)
        = rowSpec b (rest.reverse ++ q) := by
  intro rest
  induction rest with
  | nil =>
    intro q
    simp
  | cons x rest' ih =>
    intro q
    rw [List.foldl_cons, nextRow_spec, ih, List.reverse_cons, List.append_assoc]
    simp

/-- The row DP of `ComputeSimilarity` computes the Levenshtein distance. -/
theorem levDist_eq_lev (a b : LStr) : levDist a b = lev a b := by
  unfold levDist
  have hinit : List.range (b.length + 1) = rowSpec b [] := by
    unfold rowSpec
    rw [List.map_congr_left (l := List.range (b.length + 1))
      (f := fun j => lev [] ((b.take j).reverse)) (g := id) ?_]
    · rw [List.map_id]
    · intro j hj
      rw [List.mem_range] at hj
      simp only [lev_nil_left, List.length_reverse, List.length_take, id]
      omega
  rw [hinit, foldl_rows b a []]
  unfold rowSpec
  rw [List.range_succ, List.map_append, List.map_cons, List.map_nil, List.getLast?_concat]
  rw [List.take_length]
  simp only [Option.getD_some, List.append_nil]
  rw [lev_reverse]

/-- Model of `RuleBasedNluEngine::ComputeSimilarity`: 1 if both strings are
empty, 0 if exactly one is empty, otherwise `1 − dp[m][n] / max(m, n)` with
the DP table computed row by row. -/
def computeSimilarity (a b : LStr) : ℚ :=
  if a = [] ∧ b = [] then 1
  else if a = [] ∨ b = [] then 0
  else 1 - (levDist a b : ℚ) / ((max a.length b.length : ℕ) : ℚ)

/-- Claim C9: `ComputeSimilarity` equals `1 − levenshtein(a,b) / max(|a|,|b|)`
whenever `a` and `b` are not both empty; consequently `sim(a,a) = 1`,
`sim(a,"") = 0` for non-empty `a`, and `sim` is symmetric. -/
theorem computeSimilarity_spec :
    (∀ a b : LStr, ¬(a = [] ∧ b = []) →
        computeSimilarity a b = 1 - (lev a b : ℚ) / ((max a.length b.length : ℕ) : ℚ)) ∧
    (∀ a : LStr, computeSimilarity a a = 1) ∧
    (∀ a : LStr, a ≠ [] → computeSimilarity a [] = 0) ∧
    (∀ a b : LStr, computeSimilarity a b = computeSimilarity b a) := by
  have hformula : ∀ a b : LStr, ¬(a = [] ∧ b = []) →
      computeSimilarity a b = 1 - (lev a b : ℚ) / ((max a.length b.length : ℕ) : ℚ) := by
    intro a b hne
    unfold computeSimilarity
    rw [if_neg hne]
    by_cases hor : a = [] ∨ b = []
    · rw [if_pos hor]
      rcases hor with ha | hb
      · have hbne : b ≠ [] := by
          intro hb
          exact hne ⟨ha, hb⟩
        subst ha
        rw [lev_nil_left]
        have hlen : (b.length : ℚ) ≠ 0 := by
          simpa using fun h => hbne (List.length_eq_zero.mp h)
        simp only [List.length_nil, Nat.max_eq_right (Nat.zero_le _)]
        rw [div_self hlen]
        ring
      · have hane : a ≠ [] := by
          intro ha
          exact hne ⟨ha, hb⟩
        subst hb
        rw [lev_nil_right]
        have hlen : (a.length : ℚ) ≠ 0 := by
          simpa using fun h => hane (List.length_eq_zero.mp h)
        simp only [List.length_nil, Nat.max_eq_left (Nat.zero_le _)]
        rw [div_self hlen]
        ring
    · rw [if_neg hor, levDist_eq_lev]
  refine ⟨hformula, ?_, ?_, ?_⟩
  · intro a
    rcases eq_or_ne a [] with ha | ha
    · subst ha
      unfold computeSimilarity
      rw [if_pos ⟨rfl, rfl⟩]
    · rw [hformula a a (fun hc => ha hc.1), lev_self]
      simp
  · intro a ha
    unfold computeSimilarity
    rw [if_neg (fun hc => ha hc.1), if_pos (Or.inr rfl)]
  · intro a b
    rcases eq_or_ne a [] with ha | ha <;> rcases eq_or_ne b [] with hb | hb
    · subst ha
      subst hb
      rfl
    · subst ha
      rw [hformula [] b (fun hc => hb hc.2), hformula b [] (fun hc => hb hc.1),
        lev_nil_left, lev_nil_right, Nat.max_comm]
    · subst hb
      rw [hformula a [] (fun hc => ha hc.1), hformula [] a (fun hc => ha hc.2),
        lev_nil_left, lev_nil_right, Nat.max_comm]
    · rw [hformula a b (fun hc => ha hc.1), hformula b a (fun hc => hb hc.1),
        lev_symm, Nat.max_comm]

/-- Concrete instantiation of `computeSimilarity_spec`, discharging its
hypotheses at explicit inputs. -/
theorem computeSimilarity_spec_witness :
    computeSimilarity "ab".toList "a".toList
        = 1 - (lev "ab".toList "a".toList : ℚ) / ((max 2 1 : ℕ) : ℚ) ∧
    computeSimilarity "a".toList [] = 0 := by
  constructor
  · exact computeSimilarity_spec.1 "ab".toList "a".toList (by decide)
  · exact computeSimilarity_spec.2.2.1 "a".toList (by decide)

/-! ### Command model (include/command/descriptor/commanddescriptor.h),
registry (src/command/registry/commandregistry.cpp),
context (src/command/context/commandcontext.cpp) and
dispatcher (src/command/dispatcher/commanddispatcher.cpp) -/

/-- `ParamType` from commanddescriptor.h. -/
inductive ParamType where
  | kString
  | kInteger
  | kDouble
  | kBool
  | kEnum
deriving DecidableEq, Repr

/-- `ParamDescriptor` from commanddescriptor.h; `min_value`/`max_value` are
C++ `std::optional<double>`, modelled as optional rationals. -/
structure ParamDescriptor where
  name : LStr
  type : ParamType := .kString
  description : LStr := []
  required : Bool := false
  default_value : LStr := []
  enum_values : List LStr := []
  min_value : Option ℚ := none
  max_value : Option ℚ := none

/-- `CommandDescriptor` from commanddescriptor.h. -/
structure CommandDescriptor where
  name : LStr
  description : LStr := []
  trigger_phrases : List LStr := []
  parameters : List ParamDescriptor := []

/-- `CommandResult` from command_result.h. -/
inductive CommandResult where
  | kSuccess
  | kFailure
  | kInvalidParams
  | kNotHandled
deriving DecidableEq, Repr

/-- The context's parameter map (`std::unordered_map<std::string, ParamValue>`),
modelled as an association list with unique keys maintained by `setParam`. -/
abbrev Params := List (LStr × LStr)

/-- Map lookup (`params_.find(name)`). -/
def lookupParam : Params → LStr → Option LStr
  | [], _ => none
  | (a, b) :: rest, k => if a = k then some b else lookupParam rest k

/-- `CommandContext::HasParam`. -/
def hasParam (ps : Params) (k : LStr) : Bool := (lookupParam ps k).isSome

/-- `CommandContext::GetParam`: an absent name yields an empty `ParamValue`. -/
def getParam (ps : Params) (k : LStr) : LStr := (lookupParam ps k).getD []

/-- `CommandContext::SetParam` (`params_[name] = value`): replace the existing
entry or insert a new one. -/
def setParam : Params → LStr → LStr → Params
  | [], k, v => [(k, v)]
  | (a, b) :: rest, k, v => if a = k then (a, v) :: rest else (a, b) :: setParam rest k v

/-- `CommandContext`: parameter map, raw transcript, confidence. -/
structure CommandContext where
  params : Params := []
  raw_transcript : LStr := []
  confidence : ℚ := 0

/-- Truncation of a rational toward zero, the effect of C++
`static_cast<int>(double)` in the dispatcher's integer range check. -/
def ratToIntC (q : ℚ) : Int := q.num.tdiv (q.den : Int)

/-- The dispatcher's `EqualsIgnoreCase` helper. -/
def eqIgnoreCase (a b : LStr) : Bool := toLowerStr a = toLowerStr b

/-- One parameter's type/range/enum validation, from the `switch` in
`CommandDispatcher::ValidateAndFillDefaults`. -/
def validateParam (p : ParamDescriptor) (v : LStr) : Bool :=
  match p.type with
  | .kInteger =>
    match asInt v with
    | none => false
    | some iv =>
      (match p.min_value with
       | some m => decide (ratToIntC m ≤ iv)
       | none => true) &&
      (match p.max_value with
       | some m => decide (iv ≤ ratToIntC m)
       | none => true)
  | .kDouble =>
    match asDouble v with
    | none => false
    | some dv =>
      (match p.min_value with
       | some m => decide (m ≤ dv)
       | none => true) &&
      (match p.max_value with
       | some m => decide (dv ≤ m)
       | none => true)
  | .kBool => (asBool v).isSome
  | .kEnum => p.enum_values.any (fun e => eqIgnoreCase v e)
  | .kString => true

/-- `CommandDispatcher::ValidateAndFillDefaults`, parameter by parameter:
reject a missing required parameter, inject a non-empty default for a missing
optional parameter, validate whatever is present (including an injected
default); `none` models returning `false`. -/
def validateAndFillDefaults : List ParamDescriptor → CommandContext → Option CommandContext
  | [], ctx => some ctx
  | p :: rest, ctx =>
    let has := hasParam ctx.params p.name
    if p.required && !has then none
    else
      let inject := !has && !p.default_value.isEmpty
      let ctx2 :=
        if inject then { ctx with params := setParam ctx.params p.name p.default_value }
        else ctx
      let has2 := has || inject
      if !has2 then validateAndFillDefaults rest ctx2
      else if validateParam p (getParam ctx2.params p.name) then
        validateAndFillDefaults rest ctx2
      else none

/-- A command handler (`ICommand::Execute`). -/
abbrev Handler := CommandContext → CommandResult

/-- The registry's `std::unordered_map<std::string, Entry>`, modelled as an
association list keyed by command name, parametric in the handler type. -/
abbrev Registry (H : Type) := List (LStr × CommandDescriptor × H)

/-- Map lookup shared by `FindCommand` / `FindDescriptor`. -/
def findEntry {H : Type} : Registry H → LStr → Option (CommandDescriptor × H)
  | [], _ => none
  | (n, d, h) :: rest, k => if n = k then some (d, h) else findEntry rest k

/-- `commands_.find(name) != commands_.end()`. -/
def containsName {H : Type} (reg : Registry H) (k : LStr) : Bool := (findEntry reg k).isSome

/-- `CommandRegistry::Register`: reject a duplicate name, otherwise insert
the entry; returns the C++ boolean and the new registry state. -/
def registerCommand {H : Type} (reg : Registry H) (d : CommandDescriptor) (h : H) :
    Bool × Registry H :=
  if containsName reg d.name then (false, reg)
  else (true, reg ++ [(d.name, d, h)])

/-- `CommandRegistry::FindCommand`. -/
def findCommand {H : Type} (reg : Registry H) (name : LStr) : Option H :=
  (findEntry reg name).map (fun e => e.2)

/-- `CommandRegistry::FindDescriptor`. -/
def findDescriptor {H : Type} (reg : Registry H) (name : LStr) : Option CommandDescriptor :=
  (findEntry reg name).map (fun e => e.1)

/-- The part of `CommandDispatcher::Dispatch` after the registry lookups. -/
def dispatchEntry (d : CommandDescriptor) (h : Handler) (ctx : CommandContext) : CommandResult :=
  match validateAndFillDefaults d.parameters ctx with
  | none => .kInvalidParams
  | some ctx2 => h ctx2

/-- `CommandDispatcher::Dispatch`: look up the command and descriptor
(`kFailure` when missing), validate and fill defaults (`kInvalidParams` on
failure), then return `Execute`'s result verbatim. -/
def dispatch (reg : Registry Handler) (name : LStr) (ctx : CommandContext) : CommandResult :=
  match findCommand reg name with
  | none => .kFailure
  | some h =>
    match findDescriptor reg name with
    | none => .kFailure
    | some d => dispatchEntry d h ctx

/-- The names stored in a registry. -/
def regNames {H : Type} (reg : Registry H) : List LStr := reg.map (fun e => e.1)

theorem containsName_iff {H : Type} (reg : Registry H) (k : LStr) :
    containsName reg k = true ↔ k ∈ regNames reg := by
  induction reg with
  | nil => simp [containsName, findEntry, regNames]
  | cons e rest ih =>
    obtain ⟨n, d, h⟩ := e
    simp only [containsName, findEntry, regNames, List.map_cons, List.mem_cons] at ih ⊢
    by_cases hn : n = k
    · subst hn
      rw [if_pos rfl]
      exact ⟨fun _ => Or.inl rfl, fun _ => rfl⟩
    · rw [if_neg hn, ih]
      constructor
      · exact Or.inr
      · rintro (hk | hk)
        · exact absurd hk.symm hn
        · exact hk

theorem register_preserves_nodup {H : Type} (reg : Registry H) (d : CommandDescriptor) (h : H)
    (hnd : (regNames reg).Nodup) : (regNames (registerCommand reg d h).2).Nodup := by
  unfold registerCommand
  by_cases hc : containsName reg d.name = true
  · rw [if_pos hc]
    exact hnd
  · rw [if_neg hc]
    have hni : d.name ∉ regNames reg := fun hm => hc ((containsName_iff reg d.name).mpr hm)
    have : regNames (reg ++ [(d.name, d, h)]) = regNames reg ++ [d.name] := by
      simp [regNames]
    rw [this, List.nodup_append]
    refine ⟨hnd, List.nodup_singleton _, ?_⟩
    intro a ha hb
    rw [List.mem_singleton] at hb
    subst hb
    exact hni ha

/-- Claim C7: after any sequence of `Register` calls, at most one entry
exists per command name (the name list is duplicate-free), and a second
`Register` with an already-registered name returns `false` and leaves the
registry — descriptors and handlers included — unchanged. -/
theorem registry_uniqueness_spec :
    (∀ (H : Type) (calls : List (CommandDescriptor × H)),
      (regNames (calls.foldl (fun r c => (registerCommand r c.1 c.2).2) ([] : Registry H))).Nodup) ∧
    (∀ (H : Type) (reg : Registry H) (d : CommandDescriptor) (h : H),
      containsName reg d.name = true → registerCommand reg d h = (false, reg)) := by
  constructor
  · intro H calls
    have hgen : ∀ (cs : List (CommandDescriptor × H)) (reg : Registry H),
        (regNames reg).Nodup →
        (regNames (cs.foldl (fun r c => (registerCommand r c.1 c.2).2) reg)).Nodup := by
      intro cs
      induction cs with
      | nil => intro reg hr; exact hr
      | cons c rest ih =>
        intro reg hr
        rw [List.foldl_cons]
        exact ih _ (register_preserves_nodup reg c.1 c.2 hr)
    exact hgen calls [] (by simp [regNames])
  · intro H reg d h hc
    unfold registerCommand
    rw [if_pos hc]

/-- Concrete instantiation of `registry_uniqueness_spec`: re-registering the
name already present in a one-entry registry fails and leaves it unchanged. -/
theorem registry_uniqueness_spec_witness :
    registerCommand [("cmd".toList, { name := "cmd".toList : CommandDescriptor }, (0 : ℕ))]
        { name := "cmd".toList : CommandDescriptor } (1 : ℕ)
      = (false, [("cmd".toList, { name := "cmd".toList : CommandDescriptor }, (0 : ℕ))]) :=
  registry_uniqueness_spec.2 ℕ _ _ 1 (by decide)

theorem lookupParam_setParam_same (ps : Params) (k v : LStr) :
    lookupParam (setParam ps k v) k = some v := by
  induction ps with
  | nil => simp [setParam, lookupParam]
  | cons e rest ih =>
    obtain ⟨a, b⟩ := e
    by_cases ha : a = k
    · subst ha
      simp [setParam, lookupParam]
    · simp [setParam, lookupParam, ha, ih]

theorem lookupParam_setParam_ne (ps : Params) (k v k' : LStr) (h : k ≠ k') :
    lookupParam (setParam ps k v) k' = lookupParam ps k' := by
  induction ps with
  | nil => simp [setParam, lookupParam, fun hkk : k = k' => h hkk]
  | cons e rest ih =>
    obtain ⟨a, b⟩ := e
    by_cases ha : a = k
    · subst ha
      simp [setParam, lookupParam, fun hkk : a = k' => h hkk]
    · simp [setParam, lookupParam, ha, ih]

/-- The value a parameter effectively has after default filling: its present
value, else a non-empty declared default, else nothing. -/
def effValue (ctx : CommandContext) (p : ParamDescriptor) : Option LStr :=
  if hasParam ctx.params p.name then some (getParam ctx.params p.name)
  else if p.default_value ≠ [] then some p.default_value
  else none

/-- The spec-side condition of claim C1: every required parameter is present,
and every effectively-present parameter value (defaults included) passes its
type/range/enum validation. -/
def specParamsOk (params : List ParamDescriptor) (ctx : CommandContext) : Prop :=
  ∀ p ∈ params,
    (p.required = true → hasParam ctx.params p.name = true) ∧
    (effValue ctx p).all (fun v => validateParam p v) = true

instance (params : List ParamDescriptor) (ctx : CommandContext) :
    Decidable (specParamsOk params ctx) := by
  unfold specParamsOk
  infer_instance

/-- The default-injection part of `ValidateAndFillDefaults`, in isolation:
inject every non-empty default for an absent optional parameter, in order. -/
def fillCtx : List ParamDescriptor → CommandContext → CommandContext
  | [], ctx => ctx
  | p :: rest, ctx =>
    let inject := !hasParam ctx.params p.name && !p.default_value.isEmpty
    let ctx2 :=
      if inject then { ctx with params := setParam ctx.params p.name p.default_value }
      else ctx
    fillCtx rest ctx2

theorem effValue_congr {ctx ctx2 : CommandContext} {q : ParamDescriptor}
    (hh : hasParam ctx2.params q.name = hasParam ctx.params q.name)
    (hg : getParam ctx2.params q.name = getParam ctx.params q.name) :
    effValue ctx2 q = effValue ctx q := by
  unfold effValue
  rw [hh, hg]

theorem specParamsOk_congr (rest : List ParamDescriptor) {ctx ctx2 : CommandContext}
    (h : ∀ q ∈ rest, hasParam ctx2.params q.name = hasParam ctx.params q.name ∧
      getParam ctx2.params q.name = getParam ctx.params q.name) :
    specParamsOk rest ctx2 ↔ specParamsOk rest ctx := by
  unfold specParamsOk
  apply forall₂_congr
  intro q hq
  rw [(h q hq).1, effValue_congr (h q hq).1 (h q hq).2]

theorem specParamsOk_cons (p : ParamDescriptor) (rest : List ParamDescriptor)
    (ctx : CommandContext) :
    specParamsOk (p :: rest) ctx ↔
      ((p.required = true → hasParam ctx.params p.name = true) ∧
        (effValue ctx p).all (fun v => validateParam p v) = true) ∧
      specParamsOk rest ctx := by
  unfold specParamsOk
  simp [List.forall_mem_cons]

/-- `ValidateAndFillDefaults` succeeds exactly on the spec-side condition, and
then the returned context is the default-filled one (parameter names assumed
unique, as in any well-formed descriptor). -/
theorem vfd_spec (params : List ParamDescriptor) :
    ∀ ctx : CommandContext, (params.map (fun p => p.name)).Nodup →
      (specParamsOk params ctx →
        validateAndFillDefaults params ctx = some (fillCtx params ctx)) ∧
      (¬ specParamsOk params ctx → validateAndFillDefaults params ctx = none) := by
  induction params with
  | nil =>
    intro ctx _
    constructor
    · intro _
      rfl
    · intro hno
      exact absurd (by intro p hp; exact absurd hp (List.not_mem_nil p)) hno
  | cons p rest ih =>
    intro ctx hnd
    rw [List.map_cons, List.nodup_cons] at hnd
    obtain ⟨hpn, hndr⟩ := hnd
    have hqn : ∀ q ∈ rest, q.name ≠ p.name := by
      intro q hq heq
      exact hpn (heq ▸ List.mem_map_of_mem (fun r => r.name) hq)
    cases hhas : hasParam ctx.params p.name with
    | true =>
      have heff : effValue ctx p = some (getParam ctx.params p.name) := by
        unfold effValue
        rw [if_pos hhas]
      have hfill : fillCtx (p :: rest) ctx = fillCtx rest ctx := by
        simp [fillCtx, hhas]
      cases hval : validateParam p (getParam ctx.params p.name) with
      | true =>
        have hvfd : validateAndFillDefaults (p :: rest) ctx
            = validateAndFillDefaults rest ctx := by
          simp [validateAndFillDefaults, hhas, hval]
        have hpart : (p.required = true → hasParam ctx.params p.name = true) ∧
            (effValue ctx p).all (fun v => validateParam p v) = true := by
          refine ⟨fun _ => hhas, ?_⟩
          rw [heff, Option.all_some]
          exact hval
        rw [hvfd, hfill]
        constructor
        · intro hok
          exact ((ih ctx hndr).1 (((specParamsOk_cons p rest ctx).mp hok).2))
        · intro hno
          refine (ih ctx hndr).2 (fun hrest => hno ?_)
          exact (specParamsOk_cons p rest ctx).mpr ⟨hpart, hrest⟩
      | false =>
        have hvfd : validateAndFillDefaults (p :: rest) ctx = none := by
          simp [validateAndFillDefaults, hhas, hval]
        rw [hvfd]
        constructor
        · intro hok
          have := (((specParamsOk_cons p rest ctx).mp hok).1).2
          rw [heff, Option.all_some] at this
          rw [this] at hval
          cases hval
        · intro _
          rfl
    | false =>
      cases hr : p.required with
      | true =>
        have hvfd : validateAndFillDefaults (p :: rest) ctx = none := by
          simp [validateAndFillDefaults, hhas, hr]
        rw [hvfd]
        constructor
        · intro hok
          have := (((specParamsOk_cons p rest ctx).mp hok).1).1 hr
          rw [this] at hhas
          cases hhas
        · intro _
          rfl
      | false =>
        cases hd : p.default_value.isEmpty with
        | true =>
          have hdnil : p.default_value = [] := List.isEmpty_iff.mp hd
          have heff : effValue ctx p = none := by
            unfold effValue
            rw [if_neg (by rw [hhas]; exact Bool.false_ne_true), if_neg (by simpa using hdnil)]
          have hvfd : validateAndFillDefaults (p :: rest) ctx
              = validateAndFillDefaults rest ctx := by
            simp [validateAndFillDefaults, hhas, hr, hd]
          have hfill : fillCtx (p :: rest) ctx = fillCtx rest ctx := by
            simp [fillCtx, hhas, hd]
          have hpart : (p.required = true → hasParam ctx.params p.name = true) ∧
              (effValue ctx p).all (fun v => validateParam p v) = true := by
            refine ⟨fun h => absurd h (by rw [hr]; exact Bool.false_ne_true), ?_⟩
            rw [heff, Option.all_none]
          rw [hvfd, hfill]
          constructor
          · intro hok
            exact (ih ctx hndr).1 (((specParamsOk_cons p rest ctx).mp hok).2)
          · intro hno
            refine (ih ctx hndr).2 (fun hrest => hno ?_)
            exact (specParamsOk_cons p rest ctx).mpr ⟨hpart, hrest⟩
        | false =>
          have hdne : p.default_value ≠ [] := by
            intro hnil
            rw [List.isEmpty_iff.mpr hnil] at hd
            cases hd
          have heff : effValue ctx p = some p.default_value := by
            unfold effValue
            rw [if_neg (by rw [hhas]; exact Bool.false_ne_true), if_pos hdne]
          set ctx2 : CommandContext :=
            { ctx with params := setParam ctx.params p.name p.default_value } with hctx2
          have hget2 : getParam ctx2.params p.name = p.default_value := by
            rw [hctx2]
            unfold getParam
            rw [lookupParam_setParam_same]
            rfl
          have htransfer : ∀ q ∈ rest,
              hasParam ctx2.params q.name = hasParam ctx.params q.name ∧
              getParam ctx2.params q.name = getParam ctx.params q.name := by
            intro q hq
            have hne : p.name ≠ q.name := fun h => (hqn q hq) h.symm
            constructor
            · unfold hasParam
              rw [hctx2]
              rw [lookupParam_setParam_ne ctx.params p.name p.default_value q.name hne]
            · unfold getParam
              rw [hctx2]
              rw [lookupParam_setParam_ne ctx.params p.name p.default_value q.name hne]
          have hvfd : validateAndFillDefaults (p :: rest) ctx
              = (if validateParam p p.default_value then validateAndFillDefaults rest ctx2
                 else none) := by
            simp only [validateAndFillDefaults, hhas, hr, hd, hget2]
            simp [hget2]
          have hfill : fillCtx (p :: rest) ctx = fillCtx rest ctx2 := by
            simp [fillCtx, hhas, hd, hctx2]
          cases hval : validateParam p p.default_value with
          | true =>
            rw [hvfd, if_pos hval, hfill]
            have hpart : (p.required = true → hasParam ctx.params p.name = true) ∧
                (effValue ctx p).all (fun v => validateParam p v) = true := by
              refine ⟨fun h => absurd h (by rw [hr]; exact Bool.false_ne_true), ?_⟩
              rw [heff, Option.all_some]
              exact hval
            constructor
            · intro hok
              exact (ih ctx2 hndr).1
                ((specParamsOk_congr rest htransfer).mpr
                  (((specParamsOk_cons p rest ctx).mp hok).2))
            · intro hno
              refine (ih ctx2 hndr).2 (fun hrest2 => hno ?_)
              exact (specParamsOk_cons p rest ctx).mpr
                ⟨hpart, (specParamsOk_congr rest htransfer).mp hrest2⟩
          | false =>
            rw [hvfd, if_neg (by rw [hval]; exact Bool.false_ne_true)]
            constructor
            · intro hok
              have := (((specParamsOk_cons p rest ctx).mp hok).1).2
              rw [heff, Option.all_some] at this
              rw [this] at hval
              cases hval
            · intro _
              rfl
theorem fillCtx_preserves (params : List ParamDescriptor) :
    ∀ (ctx : CommandContext) (k : LStr), hasParam ctx.params k = true →
      hasParam (fillCtx params ctx).params k = true ∧
      getParam (fillCtx params ctx).params k = getParam ctx.params k := by
  induction params with
  | nil =>
    intro ctx k h
    exact ⟨h, rfl⟩
  | cons p rest ih =>
    intro ctx k hk
    cases hinj : (!hasParam ctx.params p.name && !p.default_value.isEmpty) with
    | true =>
      have hpabs : hasParam ctx.params p.name = false := by
        have := (Bool.and_eq_true _ _).mp hinj
        have h1 := this.1
        cases hpp : hasParam ctx.params p.name
        · rfl
        · rw [hpp] at h1
          cases h1
      have hne : p.name ≠ k := by
        intro h
        rw [h, hk] at hpabs
        cases hpabs
      have hfill : fillCtx (p :: rest) ctx
          = fillCtx rest { ctx with params := setParam ctx.params p.name p.default_value } := by
        simp [fillCtx, hinj]
      have hk2 : hasParam (setParam ctx.params p.name p.default_value) k = true := by
        unfold hasParam
        rw [lookupParam_setParam_ne ctx.params p.name p.default_value k hne]
        exact hk
      have hg2 : getParam (setParam ctx.params p.name p.default_value) k
          = getParam ctx.params k := by
        unfold getParam
        rw [lookupParam_setParam_ne ctx.params p.name p.default_value k hne]
      rw [hfill]
      obtain ⟨h1, h2⟩ := ih { ctx with params := setParam ctx.params p.name p.default_value } k hk2
      exact ⟨h1, by rw [h2]; exact hg2⟩
    | false =>
      have hfill : fillCtx (p :: rest) ctx = fillCtx rest ctx := by
        simp [fillCtx, hinj]
      rw [hfill]
      exact ih ctx k hk

/-- Claim C1: `Dispatch` returns `kFailure` for an unregistered name without
invoking any handler; for a registered name it invokes `Execute` on the
default-filled context and returns its result verbatim exactly when every
required parameter is present and every present value (injected defaults
included) passes validation, and otherwise returns `kInvalidParams` for every
handler (the handler is not invoked); default injection never changes a
parameter that is already present. -/
theorem dispatcher_dispatch_spec (reg : Registry Handler) (name : LStr) (ctx : CommandContext) :
    (findEntry reg name = none → dispatch reg name ctx = CommandResult.kFailure) ∧
    (∀ (d : CommandDescriptor) (h : Handler), findEntry reg name = some (d, h) →
      (d.parameters.map (fun p => p.name)).Nodup →
      ((specParamsOk d.parameters ctx →
          dispatch reg name ctx = h (fillCtx d.parameters ctx)) ∧
       (¬ specParamsOk d.parameters ctx →
          dispatch reg name ctx = CommandResult.kInvalidParams ∧
          ∀ h2 : Handler, dispatchEntry d h2 ctx = CommandResult.kInvalidParams) ∧
       (∀ p ∈ d.parameters, hasParam ctx.params p.name = true →
          getParam (fillCtx d.parameters ctx).params p.name = getParam ctx.params p.name))) := by
  constructor
  · intro hnone
    unfold dispatch findCommand
    rw [hnone]
    rfl
  · intro d h hfind hnd
    have hdisp : dispatch reg name ctx = dispatchEntry d h ctx := by
      unfold dispatch findCommand findDescriptor
      rw [hfind]
      rfl
    refine ⟨?_, ?_, ?_⟩
    · intro hok
      rw [hdisp]
      unfold dispatchEntry
      rw [(vfd_spec d.parameters ctx hnd).1 hok]
    · intro hno
      have hvfd := (vfd_spec d.parameters ctx hnd).2 hno
      constructor
      · rw [hdisp]
        unfold dispatchEntry
        rw [hvfd]
      · intro h2
        unfold dispatchEntry
        rw [hvfd]
    · intro p _ hkp
      exact (fillCtx_preserves d.parameters ctx p.name hkp).2

/-- Concrete instantiation of `dispatcher_dispatch_spec`: an in-range integer
parameter dispatches to the handler; an out-of-range one yields
`kInvalidParams`. -/
theorem dispatcher_dispatch_spec_witness :
    (dispatch
        [("zoom_to".toList,
          { name := "zoom_to".toList,
            parameters := [{ name := "level".toList, type := ParamType.kInteger,
                             required := true, min_value := some 1, max_value := some 20 }] },
          fun _ => CommandResult.kSuccess)]
        "zoom_to".toList
        { params := [("level".toList, "15".toList)] }
      = CommandResult.kSuccess) ∧
    (dispatch
        [("zoom_to".toList,
          { name := "zoom_to".toList,
            parameters := [{ name := "level".toList, type := ParamType.kInteger,
                             required := true, min_value := some 1, max_value := some 20 }] },
          fun _ => CommandResult.kSuccess)]
        "zoom_to".toList
        { params := [("level".toList, "25".toList)] }
      = CommandResult.kInvalidParams) := by
  constructor
  · have h := (dispatcher_dispatch_spec
      [("zoom_to".toList,
        { name := "zoom_to".toList,
          parameters := [{ name := "level".toList, type := ParamType.kInteger,
                           required := true, min_value := some 1, max_value := some 20 }] },
        fun _ => CommandResult.kSuccess)]
      "zoom_to".toList
      { params := [("level".toList, "15".toList)] }).2 _ _ rfl (by decide)
    rw [h.1 (by decide)]
  · have h := (dispatcher_dispatch_spec
      [("zoom_to".toList,
        { name := "zoom_to".toList,
          parameters := [{ name := "level".toList, type := ParamType.kInteger,
                           required := true, min_value := some 1, max_value := some 20 }] },
      fun _ => CommandResult.kSuccess)]
      "zoom_to".toList
      { params := [("level".toList, "25".toList)] }).2 _ _ rfl (by decide)
    exact (h.2.1 (by decide)).1

/-! ### Listening state machine (src/qt_voice_assistant.cpp) -/

/-- `ListeningMode` from qt_voice_assistant.h. -/
inductive ListeningMode where
  | kContinuous
  | kWakeWord
  | kPushToTalk
deriving DecidableEq, Repr

/-- `ListeningState` from qt_voice_assistant.h. -/
inductive ListeningState where
  | kIdle
  | kListening
  | kWakeWordActive
  | kCapturing
deriving DecidableEq, Repr

/-- The observable state `startCapture`/`stopCapture` read and write: the
configured mode, the running flag, and the listening state. -/
structure AssistantState where
  mode : ListeningMode
  running : Bool
  lstate : ListeningState

/-- `QtVoiceAssistant::startCapture`: rejected unless the mode is PushToTalk,
the assistant is running and the state is Idle; on success the state becomes
Capturing.  Returns the C++ boolean and the resulting listening state. -/
def startCapture (s : AssistantState) : Bool × ListeningState :=
  if s.mode ≠ ListeningMode.kPushToTalk then (false, s.lstate)
  else if !s.running then (false, s.lstate)
  else if s.lstate ≠ ListeningState.kIdle then (false, s.lstate)
  else (true, ListeningState.kCapturing)

/-- `QtVoiceAssistant::stopCapture`: rejected unless the state is Capturing;
on success the state becomes Idle. -/
def stopCapture (s : AssistantState) : Bool × ListeningState :=
  if s.lstate ≠ ListeningState.kCapturing then (false, s.lstate)
  else (true, ListeningState.kIdle)

/-- Claim C8: `startCapture` returns `false` and leaves the listening state
unchanged whenever the mode is not PushToTalk or the state is not Idle, and
`stopCapture` returns `false` and leaves the state unchanged whenever the
state is not Capturing. -/
theorem listening_fsm_spec :
    ∀ s : AssistantState,
      ((s.mode ≠ ListeningMode.kPushToTalk ∨ s.lstate ≠ ListeningState.kIdle) →
        startCapture s = (false, s.lstate)) ∧
      (s.lstate ≠ ListeningState.kCapturing → stopCapture s = (false, s.lstate)) := by
  rintro ⟨m, r, l⟩
  cases m <;> cases r <;> cases l <;> exact ⟨by decide, by decide⟩

/-- Concrete instantiation of `listening_fsm_spec`: a Continuous-mode call
and a stop while Idle are both rejected without a state change. -/
theorem listening_fsm_spec_witness :
    startCapture ⟨ListeningMode.kContinuous, true, ListeningState.kListening⟩
        = (false, ListeningState.kListening) ∧
    stopCapture ⟨ListeningMode.kPushToTalk, true, ListeningState.kIdle⟩
        = (false, ListeningState.kIdle) :=
  ⟨(listening_fsm_spec ⟨ListeningMode.kContinuous, true, ListeningState.kListening⟩).1
      (Or.inl (by decide)),
    (listening_fsm_spec ⟨ListeningMode.kPushToTalk, true, ListeningState.kIdle⟩).2 (by decide)⟩

/-! ### Rule-based NLU engine (src/command/nlu/rule_based_nlu_engine.cpp) -/

/-- `std::replace(name.begin(), name.end(), '_', ' ')`. -/
def underscoreToSpace (s : LStr) : LStr := s.map (fun c => if c = '_' then ' ' else c)

/-- `MatchIntent`'s running best: descriptor pointer (nullable), confidence,
matched trigger. -/
structure IntentMatch where
  descriptor : Option CommandDescriptor := none
  confidence : ℚ := 0
  matched_trigger : LStr := []

/-- The score `MatchIntent` assigns one trigger phrase: similarity, boosted
to at least 0.8 (`std::max(score, 0.8f)`, the float literal abstracted to
4/5) when the normalised transcript contains the normalised trigger. -/
def triggerScore (nt trig : LStr) : ℚ :=
  if containsIgnoreCase nt (normalize trig) then
    max (computeSimilarity nt (normalize trig)) (4/5 : ℚ)
  else computeSimilarity nt (normalize trig)

/-- One trigger-phrase step of `MatchIntent`: keep the strictly better match. -/
def triggerStep (nt : LStr) (d : CommandDescriptor) (best : IntentMatch) (trig : LStr) :
    IntentMatch :=
  if triggerScore nt trig > best.confidence then
    { descriptor := some d, confidence := triggerScore nt trig, matched_trigger := trig }
  else best

/-- One descriptor step of `MatchIntent`: all trigger phrases, then the
command name with underscores as spaces (used as pseudo-trigger). -/
def descStep (nt : LStr) (best : IntentMatch) (d : CommandDescriptor) : IntentMatch :=
  let b1 := d.trigger_phrases.foldl (triggerStep nt d) best
  if computeSimilarity nt (underscoreToSpace (normalize d.name)) > b1.confidence then
    { descriptor := some d,
      confidence := computeSimilarity nt (underscoreToSpace (normalize d.name)),
      matched_trigger := underscoreToSpace d.name }
  else b1

/-- `RuleBasedNluEngine::MatchIntent`. -/
def matchIntent (transcript : LStr) (schemas : List CommandDescriptor) : IntentMatch :=
  schemas.foldl (descStep (normalize transcript)) {}

/-- Whitespace tokenisation, as `std::istringstream >> word` produces it. -/
def splitWords (s : LStr) : List LStr := (s.splitOnP isCSpace).filter (fun w => w ≠ [])

/-- Words re-joined with single spaces, as the C++ accumulation loops do. -/
def joinWords (ws : List LStr) : LStr := List.intercalate [' '] ws

/-- The per-window exact-match fraction of `ExtractArgumentsRegion`'s sliding
word match. -/
def windowScore (tw gw : List LStr) (start : ℕ) : ℚ :=
  ((List.range gw.length).foldl (fun acc i =>
      if start + i < tw.length ∧ tw.getD (start + i) [] = gw.getD i [] then acc + 1 else acc)
    (0 : ℚ)) / (gw.length : ℚ)

/-- The best (score, start) over the C++ sliding loop, keeping strictly
better scores.  When the trigger has more words than the transcript every
window scores 0 and the initial `(0, 0)` stands, which is also the C++
outcome. -/
def bestWindow (tw gw : List LStr) : ℚ × ℕ :=
  let count := if gw.length ≤ tw.length then tw.length - gw.length + 1 else 0
  (List.range count).foldl (fun best start =>
      let ms := windowScore tw gw start
      if ms > best.1 then (ms, start) else best)
    ((0 : ℚ), 0)

/-- `RuleBasedNluEngine::ExtractArgumentsRegion`: the suffix after the first
substring occurrence of the normalised trigger (whitespace skipped), else the
words after the best sliding-window match when its score is at least 0.5,
else the whole normalised transcript. -/
def extractArgumentsRegion (transcript matched_trigger : LStr) : LStr :=
  let nt := normalize transcript
  let ntr := normalize matched_trigger
  match strFind nt ntr with
  | some p => (nt.drop (p + ntr.length)).dropWhile isCSpace
  | none =>
    let tw := splitWords nt
    let gw := splitWords ntr
    if gw = [] then nt
    else
      let bw := bestWindow tw gw
      if bw.1 ≥ (1/2 : ℚ) then joinWords (tw.drop (bw.2 + gw.length))
      else nt

/-- Trailing-punctuation stripping (`while ispunct(back) pop_back`). -/
def stripTrailingPunct (s : LStr) : LStr := (s.reverse.dropWhile isPunctC).reverse

/-- Up to `k` whitespace-separated words, re-joined with single spaces. -/
def takeWords (k : ℕ) (s : LStr) : LStr := joinWords ((splitWords s).take k)

/-- The common pattern of the String extraction: find a keyword, skip the
whitespace after it, take up to `maxWords` words, strip trailing punctuation;
`none` when the keyword is absent or nothing non-empty results. -/
def tryAfterKeyword (text kw : LStr) (maxWords : ℕ) : Option LStr :=
  match findKeyword text kw with
  | none => none
  | some p =>
    let after := (text.drop (p + kw.length)).dropWhile isCSpace
    if after = [] then none
    else
      let r := stripTrailingPunct (takeWords maxWords after)
      if r = [] then none else some r

/-- The preposition list of the String extraction. -/
def prepositions : List LStr := ["to", "at", "near", "called", "named"].map String.toList

/-- `' '`/tab set of `find_first_not_of(" \t")` in the String extraction's
final fallback. -/
def isSpaceTab (c : Char) : Bool := c = ' ' || c = '\t'

/-- The `kString` branch of `ExtractParamValue`: (keyword, 3 words) first,
then each preposition in order (4 words), then the whole text with trailing
punctuation stripped and surrounding space/tab trimmed. -/
def extractStringValue (text : LStr) (paramName : LStr) : LStr :=
  let kw := underscoreToSpace (toLowerStr paramName)
  match tryAfterKeyword text kw 3 with
  | some r => r
  | none =>
    match prepositions.findSome? (fun prep => tryAfterKeyword text prep 4) with
    | some r => r
    | none =>
      if text ≠ [] then
        let r := stripTrailingPunct text
        if r.dropWhile isSpaceTab = [] then []
        else ((r.dropWhile isSpaceTab).reverse.dropWhile isSpaceTab).reverse
      else []

/-- Word characters for the `\b` boundaries of `FindIntegers`/`FindDoubles`. -/
def isWordChar (c : Char) : Bool :=
  ('a' ≤ c && c ≤ 'z') || ('A' ≤ c && c ≤ 'Z') || isDigitC c || c = '_'

/-- Whether a `\b` boundary holds after a token: at the end of the string it
holds iff the token ends in a word character; otherwise iff exactly one of
token-end and next character is a word character. -/
def boundaryAfter (lastIsWord : Bool) (next : Option Char) : Bool :=
  match next with
  | none => lastIsWord
  | some c => lastIsWord != isWordChar c

/-- Scan for `\b\d+\b` matches with their positions (`FindIntegers`). -/
def findIntegersGo : LStr → ℕ → Option Char → List (LStr × ℕ)
  | [], _, _ => []
  | c :: rest, pos, prev =>
    if isDigitC c && !(prev.elim false isWordChar) then
      let run := c :: rest.takeWhile isDigitC
      let after := rest.dropWhile isDigitC
      if boundaryAfter true after.head? then
        (run, pos) :: findIntegersGo after (pos + run.length) (some '0')
      else findIntegersGo after (pos + run.length) (some '0')
    else findIntegersGo rest (pos + 1) (some c)
termination_by l _ _ => l.length
decreasing_by
  all_goals try simp_wf
  all_goals
    have h1 : (rest.dropWhile isDigitC).length ≤ rest.length :=
      (List.dropWhile_sublist _).length_le
  all_goals omega

def findIntegers (text : LStr) : List (LStr × ℕ) := findIntegersGo text 0 none

theorem dropWhile_tail_chain (rest : LStr) :
    ((rest.dropWhile isDigitC).tail.dropWhile isDigitC).length ≤ rest.length ∧
    ((rest.dropWhile isDigitC).tail.takeWhile isDigitC ++
      (rest.dropWhile isDigitC).tail.dropWhile isDigitC).length ≤ rest.length ∧
    (rest.dropWhile isDigitC).length ≤ rest.length := by
  have h3 : (rest.dropWhile isDigitC).length ≤ rest.length :=
    (List.dropWhile_sublist _).length_le
  have h2 : (rest.dropWhile isDigitC).tail.length ≤ (rest.dropWhile isDigitC).length := by
    rw [List.length_tail]
    omega
  have h1 : ((rest.dropWhile isDigitC).tail.dropWhile isDigitC).length
      ≤ (rest.dropWhile isDigitC).tail.length :=
    (List.dropWhile_sublist _).length_le
  have h0 : (rest.dropWhile isDigitC).tail.takeWhile isDigitC ++
      (rest.dropWhile isDigitC).tail.dropWhile isDigitC = (rest.dropWhile isDigitC).tail :=
    List.takeWhile_append_dropWhile _ _
  refine ⟨by omega, ?_, h3⟩
  rw [h0]
  omega

/-- Scan for `\b\d+\.?\d*\b` matches with their positions (`FindDoubles`),
with the regex backtracking order: full fraction, then the bare dot, then
the integer part alone. -/
def findDoublesGo : LStr → ℕ → Option Char → List (LStr × ℕ)
  | [], _, _ => []
  | c :: rest, pos, prev =>
    if isDigitC c && !(prev.elim false isWordChar) then
      let run := c :: rest.takeWhile isDigitC
      let after := rest.dropWhile isDigitC
      if after.head? = some '.' then
        let fr := after.tail.takeWhile isDigitC
        let r3 := after.tail.dropWhile isDigitC
        if fr ≠ [] && boundaryAfter true r3.head? then
          (run ++ '.' :: fr, pos) ::
            findDoublesGo r3 (pos + (run ++ '.' :: fr).length) (some '0')
        else if boundaryAfter false ((fr ++ r3).head?) then
          (run ++ ['.'], pos) :: findDoublesGo (fr ++ r3) (pos + run.length + 1) (some '.')
        else
          (run, pos) :: findDoublesGo after (pos + run.length) (some '0')
      else
        if boundaryAfter true after.head? then
          (run, pos) :: findDoublesGo after (pos + run.length) (some '0')
        else findDoublesGo after (pos + run.length) (some '0')
    else findDoublesGo rest (pos + 1) (some c)
termination_by l _ _ => l.length
decreasing_by
  all_goals try simp_wf
  all_goals have hc := dropWhile_tail_chain rest
  all_goals omega

def findDoubles (text : LStr) : List (LStr × ℕ) := findDoublesGo text 0 none

/-- `SIZE_MAX`, the initial `min_distance` of the integer extraction. -/
def sizeMax : ℕ := 2 ^ 64 - 1

/-- The `kInteger` branch of `ExtractParamValue`: the single integer if there
is one; with several, the one closest to the parameter-name keyword (first
wins on ties), or the first when the keyword is absent. -/
def extractIntValue (text : LStr) (paramName : LStr) : LStr :=
  match findIntegers text with
  | [] => []
  | [one] => one.1
  | ints =>
    let kw := underscoreToSpace (toLowerStr paramName)
    match findKeyword text kw with
    | none => (ints.headD ([], 0)).1
    | some kp =>
      (ints.foldl (fun (acc : ℕ × LStr) cur =>
          let dist := if kp ≤ cur.2 then cur.2 - kp else kp - cur.2
          if dist < acc.1 then (dist, cur.1) else acc)
        (sizeMax, [])).2

/-- `RuleBasedNluEngine::ExtractParamValue`: normalise the argument region
and extract by parameter type. -/
def extractParamValue (region : LStr) (p : ParamDescriptor) : LStr :=
  let text := normalize region
  match p.type with
  | .kInteger => extractIntValue text p.name
  | .kDouble =>
    match findDoubles text with
    | [] => []
    | x :: _ => x.1
  | .kBool =>
    if containsIgnoreCase text "yes".toList || containsIgnoreCase text "true".toList ||
        containsIgnoreCase text "enable".toList || containsIgnoreCase text "on".toList then
      "true".toList
    else if containsIgnoreCase text "no".toList || containsIgnoreCase text "false".toList ||
        containsIgnoreCase text "disable".toList || containsIgnoreCase text "off".toList then
      "false".toList
    else []
  | .kEnum => ((p.enum_values.find? (fun e => containsIgnoreCase text e)).getD [])
  | .kString => extractStringValue text p.name

/-- `RuleBasedNluEngine::ExtractParams`: only non-empty extractions are
inserted. -/
def extractParams (region : LStr) (d : CommandDescriptor) : Params :=
  d.parameters.foldl (fun ps p =>
      let v := extractParamValue region p
      if v ≠ [] then setParam ps p.name v else ps)
    []

/-- `NluResult` from inlu_engine.h. -/
structure NluResult where
  success : Bool := false
  command_name : LStr := []
  confidence : ℚ := 0
  extracted_params : Params := []
  error_message : LStr := []

/-- `RuleBasedNluEngine::Process` (default `min_confidence_` is 0.5). -/
def process (minConfidence : ℚ) (transcript : LStr) (schemas : List CommandDescriptor) :
    NluResult :=
  if transcript.isEmpty then { error_message := "Empty transcript".toList }
  else if schemas.isEmpty then { error_message := "No command schemas provided".toList }
  else
    let im := matchIntent transcript schemas
    match im.descriptor with
    | none => { error_message := "No matching command found (confidence too low)".toList }
    | some d =>
      if im.confidence < minConfidence then
        { error_message := "No matching command found (confidence too low)".toList }
      else
        { success := true, command_name := d.name, confidence := im.confidence,
          extracted_params := extractParams (extractArgumentsRegion transcript im.matched_trigger) d }

theorem triggerStep_mono (nt : LStr) (d : CommandDescriptor) (best : IntentMatch)
    (trig : LStr) : best.confidence ≤ (triggerStep nt d best trig).confidence := by
  unfold triggerStep
  by_cases h : triggerScore nt trig > best.confidence
  · rw [if_pos h]
    exact le_of_lt h
  · rw [if_neg h]

theorem foldl_triggerStep_mono (nt : LStr) (d : CommandDescriptor) (l : List LStr) :
    ∀ best : IntentMatch, best.confidence ≤ (l.foldl (triggerStep nt d) best).confidence := by
  induction l with
  | nil => intro best; exact le_refl _
  | cons a l' ih =>
    intro best
    rw [List.foldl_cons]
    exact le_trans (triggerStep_mono nt d best a) (ih _)

theorem triggerScore_ge (nt trig : LStr)
    (hc : containsIgnoreCase nt (normalize trig) = true) :
    (4/5 : ℚ) ≤ triggerScore nt trig := by
  unfold triggerScore
  rw [if_pos hc]
  exact le_max_right _ _

theorem triggerStep_bound (nt : LStr) (d : CommandDescriptor) (best : IntentMatch)
    (trig : LStr) (hc : containsIgnoreCase nt (normalize trig) = true) :
    (4/5 : ℚ) ≤ (triggerStep nt d best trig).confidence := by
  unfold triggerStep
  by_cases h : triggerScore nt trig > best.confidence
  · rw [if_pos h]
    exact triggerScore_ge nt trig hc
  · rw [if_neg h]
    exact le_trans (triggerScore_ge nt trig hc) (not_lt.mp h)

theorem foldl_triggerStep_bound (nt : LStr) (d : CommandDescriptor) (l : List LStr)
    (t : LStr) (ht : t ∈ l) (hc : containsIgnoreCase nt (normalize t) = true) :
    ∀ best : IntentMatch, (4/5 : ℚ) ≤ (l.foldl (triggerStep nt d) best).confidence := by
  induction l with
  | nil => exact absurd ht (List.not_mem_nil t)
  | cons a l' ih =>
    intro best
    rw [List.foldl_cons]
    rcases List.mem_cons.mp ht with hta | htl
    · subst hta
      exact le_trans (triggerStep_bound nt d best t hc) (foldl_triggerStep_mono nt d l' _)
    · exact ih htl _

theorem descStep_mono (nt : LStr) (best : IntentMatch) (d : CommandDescriptor) :
    best.confidence ≤ (descStep nt best d).confidence := by
  unfold descStep
  by_cases h : computeSimilarity nt (underscoreToSpace (normalize d.name))
      > (d.trigger_phrases.foldl (triggerStep nt d) best).confidence
  · rw [if_pos h]
    exact le_of_lt (lt_of_le_of_lt (foldl_triggerStep_mono nt d _ best) h)
  · rw [if_neg h]
    exact foldl_triggerStep_mono nt d _ best

theorem descStep_bound (nt : LStr) (best : IntentMatch) (d : CommandDescriptor)
    (t : LStr) (ht : t ∈ d.trigger_phrases)
    (hc : containsIgnoreCase nt (normalize t) = true) :
    (4/5 : ℚ) ≤ (descStep nt best d).confidence := by
  unfold descStep
  have hb1 := foldl_triggerStep_bound nt d d.trigger_phrases t ht hc best
  by_cases h : computeSimilarity nt (underscoreToSpace (normalize d.name))
      > (d.trigger_phrases.foldl (triggerStep nt d) best).confidence
  · rw [if_pos h]
    exact le_of_lt (lt_of_le_of_lt hb1 h)
  · rw [if_neg h]
    exact hb1

theorem foldl_descStep_mono (nt : LStr) (l : List CommandDescriptor) :
    ∀ best : IntentMatch, best.confidence ≤ (l.foldl (descStep nt) best).confidence := by
  induction l with
  | nil => intro best; exact le_refl _
  | cons a l' ih =>
    intro best
    rw [List.foldl_cons]
    exact le_trans (descStep_mono nt best a) (ih _)

/-- Claim C4: if some descriptor has a trigger whose normalised form is a
substring of the normalised transcript, the confidence returned by
`MatchIntent` is at least 0.8. -/
theorem nlu_trigger_substring_bound (transcript : LStr) (schemas : List CommandDescriptor)
    (d : CommandDescriptor) (t : LStr) (hd : d ∈ schemas) (ht : t ∈ d.trigger_phrases)
    (hc : containsIgnoreCase (normalize transcript) (normalize t) = true) :
    (4/5 : ℚ) ≤ (matchIntent transcript schemas).confidence := by
  unfold matchIntent
  have hgen : ∀ (l : List CommandDescriptor), d ∈ l →
      ∀ best : IntentMatch,
        (4/5 : ℚ) ≤ (l.foldl (descStep (normalize transcript)) best).confidence := by
    intro l hdl
    induction l with
    | nil => exact absurd hdl (List.not_mem_nil d)
    | cons a l' ih =>
      intro best
      rw [List.foldl_cons]
      rcases List.mem_cons.mp hdl with hda | hdl'
      · subst hda
        exact le_trans (descStep_bound (normalize transcript) best d t ht hc)
          (foldl_descStep_mono (normalize transcript) l' _)
      · exact ih hdl' _
  exact hgen schemas hd {}

/-- Concrete instantiation of `nlu_trigger_substring_bound`: the trigger
"show help" is contained in the transcript "please show help now". -/
theorem nlu_trigger_substring_bound_witness :
    (4/5 : ℚ) ≤ (matchIntent "please show help now".toList
      [{ name := "show_help".toList,
         trigger_phrases := ["show help".toList, "help".toList] }]).confidence :=
  nlu_trigger_substring_bound "please show help now".toList
    [{ name := "show_help".toList,
       trigger_phrases := ["show help".toList, "help".toList] }]
    { name := "show_help".toList,
      trigger_phrases := ["show help".toList, "help".toList] }
    "show help".toList (List.mem_singleton.mpr rfl) (by decide) (by decide)

/-- Claim C10: for every argument region, the Bool extraction returns the
empty string, exactly `"true"`, or exactly `"false"`; every non-empty result
is accepted by `ParamValue::AsBool` and passes the dispatcher's Bool
validation. -/
theorem nlu_bool_extraction_spec :
    ∀ (region nm desc : LStr) (req : Bool) (dflt : LStr) (ev : List LStr)
      (mn mx : Option ℚ),
      (extractParamValue region
          { name := nm, type := ParamType.kBool, description := desc, required := req,
            default_value := dflt, enum_values := ev, min_value := mn, max_value := mx } = []
        ∨ extractParamValue region
          { name := nm, type := ParamType.kBool, description := desc, required := req,
            default_value := dflt, enum_values := ev, min_value := mn, max_value := mx }
          = "true".toList
        ∨ extractParamValue region
          { name := nm, type := ParamType.kBool, description := desc, required := req,
            default_value := dflt, enum_values := ev, min_value := mn, max_value := mx }
          = "false".toList) ∧
      (extractParamValue region
          { name := nm, type := ParamType.kBool, description := desc, required := req,
            default_value := dflt, enum_values := ev, min_value := mn, max_value := mx } ≠ [] →
        (asBool (extractParamValue region
            { name := nm, type := ParamType.kBool, description := desc, required := req,
              default_value := dflt, enum_values := ev, min_value := mn,
              max_value := mx })).isSome = true ∧
        validateParam
          { name := nm, type := ParamType.kBool, description := desc, required := req,
            default_value := dflt, enum_values := ev, min_value := mn, max_value := mx }
          (extractParamValue region
            { name := nm, type := ParamType.kBool, description := desc, required := req,
              default_value := dflt, enum_values := ev, min_value := mn, max_value := mx })
          = true) := by
  intro region nm desc req dflt ev mn mx
  simp only [extractParamValue]
  constructor
  · split
    · exact Or.inr (Or.inl rfl)
    · split
      · exact Or.inr (Or.inr rfl)
      · exact Or.inl rfl
  · intro hne
    revert hne
    split
    · intro _
      exact ⟨by decide, rfl⟩
    · split
      · intro _
        exact ⟨by decide, rfl⟩
      · intro hne
        exact absurd rfl hne

/-- Concrete instantiation of `nlu_bool_extraction_spec` at the region
"turn it on": the extraction yields "true", which `AsBool` accepts. -/
theorem nlu_bool_extraction_spec_witness :
    (asBool (extractParamValue "turn it on".toList
        { name := "flag".toList, type := ParamType.kBool })).isSome = true :=
  ((nlu_bool_extraction_spec "turn it on".toList "flag".toList [] false [] [] none none).2
    (by decide)).1

/-! ### Claim C6: the String-parameter extraction rule.

`extractStringValueClaim` renders the claim's (a)/(b)/(c) literally: case (a)
applies *whenever* the parameter name appears.  The code instead falls
through to (b)/(c) when nothing non-empty follows the name, so the claim is
corrected by `extractStringValueAmended`, which is proved equal to the
code's extraction. -/

/-- Claim-side rendering of C6 as stated: if the parameter name appears, the
result is always the up-to-3 following words with trailing punctuation
stripped (possibly empty). -/
def extractStringValueClaim (region : LStr) (paramName : LStr) : LStr :=
  let text := normalize region
  let kw := underscoreToSpace (toLowerStr paramName)
  match findKeyword text kw with
  | some p =>
    stripTrailingPunct (takeWords 3 ((text.drop (p + kw.length)).dropWhile isCSpace))
  | none =>
    match prepositions.findSome? (fun prep => tryAfterKeyword text prep 4) with
    | some r => r
    | none =>
      if text ≠ [] then
        let r := stripTrailingPunct text
        if r.dropWhile isSpaceTab = [] then []
        else ((r.dropWhile isSpaceTab).reverse.dropWhile isSpaceTab).reverse
      else []

/-- Space/tab trimming at both ends. -/
def trimSpaceTab (s : LStr) : LStr :=
  ((s.dropWhile isSpaceTab).reverse.dropWhile isSpaceTab).reverse

/-- Spec-side "words after a keyword" (amended reading): tokenise what
follows the keyword, keep up to `k` words, strip trailing punctuation, and
yield nothing when that leaves nothing. -/
def specAfter (text kw : LStr) (k : ℕ) : Option LStr :=
  (findKeyword text kw).bind (fun p =>
    let r := stripTrailingPunct (joinWords ((splitWords (text.drop (p + kw.length))).take k))
    if r = [] then none else some r)

/-- The amended claim C6: (a) applies only when the up-to-3 words after the
parameter name survive punctuation stripping; otherwise each of
to/at/near/called/named is tried in order with up to 4 words; otherwise the
whole region is returned with trailing punctuation stripped and surrounding
spaces/tabs trimmed. -/
def extractStringValueAmended (region : LStr) (paramName : LStr) : LStr :=
  let text := normalize region
  let kw := underscoreToSpace (toLowerStr paramName)
  match specAfter text kw 3 with
  | some r => r
  | none =>
    match prepositions.findSome? (fun prep => specAfter text prep 4) with
    | some r => r
    | none => trimSpaceTab (stripTrailingPunct text)

theorem splitWords_dropWhile (l : LStr) : splitWords (l.dropWhile isCSpace) = splitWords l := by
  induction l with
  | nil => rfl
  | cons c l' ih =>
    by_cases hc : isCSpace c = true
    · rw [List.dropWhile_cons_of_pos hc]
      rw [ih]
      unfold splitWords
      rw [List.splitOnP_cons, if_pos hc, List.filter_cons]
      simp
    · rw [List.dropWhile_cons_of_neg (by simpa using hc)]

theorem tryAfterKeyword_eq_specAfter (text kw : LStr) (k : ℕ) :
    tryAfterKeyword text kw k = specAfter text kw k := by
  unfold tryAfterKeyword specAfter
  cases hf : findKeyword text kw with
  | none => rfl
  | some p =>
    rw [Option.some_bind]
    simp only []
    have hsw : splitWords ((text.drop (p + kw.length)).dropWhile isCSpace)
        = splitWords (text.drop (p + kw.length)) := splitWords_dropWhile _
    by_cases ha : (text.drop (p + kw.length)).dropWhile isCSpace = []
    · rw [if_pos ha]
      have hnil : splitWords (text.drop (p + kw.length)) = [] := by
        rw [← hsw, ha]
        rfl
      rw [hnil, List.take_nil]
      rfl
    · rw [if_neg ha]
      unfold takeWords
      rw [hsw]

/-- The final fallback of the code's String extraction equals unconditional
trimming of the punctuation-stripped text. -/
theorem stringFallback_eq_trim (text : LStr) :
    (if text ≠ [] then
        if (stripTrailingPunct text).dropWhile isSpaceTab = [] then ([] : LStr)
        else (((stripTrailingPunct text).dropWhile isSpaceTab).reverse.dropWhile
          isSpaceTab).reverse
      else []) = trimSpaceTab (stripTrailingPunct text) := by
  by_cases ht : text = []
  · subst ht
    rfl
  · rw [if_pos (by simpa using ht)]
    by_cases hs : (stripTrailingPunct text).dropWhile isSpaceTab = []
    · rw [if_pos hs]
      unfold trimSpaceTab
      rw [hs]
      rfl
    · rw [if_neg hs]
      rfl

theorem extractStringValue_eq_amended_core (text nm : LStr) :
    extractStringValue text nm
      = (match specAfter text (underscoreToSpace (toLowerStr nm)) 3 with
         | some r => r
         | none =>
           match prepositions.findSome? (fun prep => specAfter text prep 4) with
           | some r => r
           | none => trimSpaceTab (stripTrailingPunct text)) := by
  simp only [extractStringValue]
  rw [tryAfterKeyword_eq_specAfter]
  cases specAfter text (underscoreToSpace (toLowerStr nm)) 3 with
  | some r => rfl
  | none =>
    simp only
    have hfun : (fun prep => tryAfterKeyword text prep 4)
        = (fun prep => specAfter text prep 4) :=
      funext (fun prep => tryAfterKeyword_eq_specAfter text prep 4)
    rw [hfun]
    cases prepositions.findSome? (fun prep => specAfter text prep 4) with
    | some r => rfl
    | none =>
      simp only
      exact stringFallback_eq_trim text

/-- Counterexample to claim C6 as stated: on the argument region "color"
with a String parameter named "color", the claim's case (a) yields the empty
extraction, but the code returns "color" through case (c). -/
theorem nlu_string_extraction_counterexample :
    extractParamValue "color".toList
        { name := "color".toList, type := ParamType.kString } = "color".toList ∧
    extractStringValueClaim "color".toList "color".toList = [] ∧
    extractParamValue "color".toList { name := "color".toList, type := ParamType.kString }
      ≠ extractStringValueClaim "color".toList "color".toList := by
  refine ⟨by decide, by decide, by decide⟩

/-- Claim C6 (amended): the String extraction equals the amended (a)/(b)/(c)
rule for every argument region and parameter, and the concrete scenario
"change color to green." against `change_color` yields `color = "green"` and
dispatches to `kSuccess`. -/
theorem nlu_string_extraction_spec :
    (∀ (region nm desc : LStr) (req : Bool) (dflt : LStr) (ev : List LStr)
        (mn mx : Option ℚ),
      extractParamValue region
          { name := nm, type := ParamType.kString, description := desc, required := req,
            default_value := dflt, enum_values := ev, min_value := mn, max_value := mx }
        = extractStringValueAmended region nm) ∧
    ((process (1/2) "change color to green.".toList
        [{ name := "change_color".toList,
           trigger_phrases := ["change color to".toList, "set color to".toList],
           parameters := [{ name := "color".toList, type := ParamType.kString,
                            required := true }] }]).success = true ∧
      (process (1/2) "change color to green.".toList
        [{ name := "change_color".toList,
           trigger_phrases := ["change color to".toList, "set color to".toList],
           parameters := [{ name := "color".toList, type := ParamType.kString,
                            required := true }] }]).command_name = "change_color".toList ∧
      (process (1/2) "change color to green.".toList
        [{ name := "change_color".toList,
           trigger_phrases := ["change color to".toList, "set color to".toList],
           parameters := [{ name := "color".toList, type := ParamType.kString,
                            required := true }] }]).extracted_params
        = [("color".toList, "green".toList)] ∧
      dispatch
        [("change_color".toList,
          { name := "change_color".toList,
            trigger_phrases := ["change color to".toList, "set color to".toList],
            parameters := [{ name := "color".toList, type := ParamType.kString,
                             required := true }] },
          fun _ => CommandResult.kSuccess)]
        "change_color".toList
        { params := [("color".toList, "green".toList)],
          raw_transcript := "change color to green.".toList }
        = CommandResult.kSuccess) := by
  constructor
  · intro region nm desc req dflt ev mn mx
    have h := extractStringValue_eq_amended_core (normalize region) nm
    simpa [extractParamValue, extractStringValueAmended] using h
  · refine ⟨by decide, by decide, by decide, by decide⟩

/-! ### SimpleVad (src/audio_capture/vad/simple_vad.cpp)

Samples and energies are exact rationals; the code computes in `float` and
casts `M_PI` to `float`, so π is modelled by the exact rational value of the
binary32 constant `(float)M_PI`.  `Detect` never mutates its input in this
pure model, matching the code's filtering of a copy. -/

/-- `VadConfig` from ivad.h (float defaults abstracted to rationals). -/
structure VadConfig where
  window_ms : ℕ := 1000
  energy_threshold : ℚ := 3/5
  freq_threshold : ℚ := 100
  sample_rate : ℕ := 16000
  verbose : Bool := false

/-- `VadResult` from ivad.h. -/
structure VadResult where
  speech_ended : Bool := false
  energy_all : ℚ := 0
  energy_last : ℚ := 0
deriving DecidableEq, Repr

/-- The binary32 value of `static_cast<float>(M_PI)`. -/
def piF : ℚ := 13176795 / 4194304

/-- The filter loop of `ApplyHighPassFilter`.  The C++ loop reads
`data[i - 1]` after having overwritten it in the previous iteration, so the
carried `prevWritten` is the previously *written* value. -/
def hpfGo (alpha : ℚ) : ℚ → ℚ → List ℚ → List ℚ
  | _, _, [] => []
  | y, prevWritten, x :: xs =>
    (alpha * (y + x - prevWritten)) ::
      hpfGo alpha (alpha * (y + x - prevWritten)) (alpha * (y + x - prevWritten)) xs

/-- `SimpleVad::ApplyHighPassFilter` with `α = Δt/(RC+Δt)`,
`RC = 1/(2π·cutoff)`. -/
def applyHighPassFilter (data : List ℚ) (cutoff sampleRate : ℚ) : List ℚ :=
  match data with
  | [] => []
  | x0 :: xs =>
    x0 :: hpfGo ((1 / sampleRate) / (1 / (2 * piF * cutoff) + 1 / sampleRate)) x0 x0 xs

theorem length_hpfGo (alpha : ℚ) : ∀ (y pw : ℚ) (xs : List ℚ),
    (hpfGo alpha y pw xs).length = xs.length := by
  intro y pw xs
  induction xs generalizing y pw with
  | nil => rfl
  | cons x xs ih =>
    simp only [hpfGo, List.length_cons]
    rw [ih]

theorem length_applyHighPassFilter (data : List ℚ) (cutoff sampleRate : ℚ) :
    (applyHighPassFilter data cutoff sampleRate).length = data.length := by
  cases data with
  | nil => rfl
  | cons x0 xs =>
    simp only [applyHighPassFilter, List.length_cons]
    rw [length_hpfGo]

/-- The single energy loop of `Detect`: accumulate `|x_i|` into the total
energy, and also into the window energy when `i ≥ n − n_last`. -/
def energyPair (nLast : ℕ) (fs : List ℚ) : ℚ × ℚ :=
  (List.range fs.length).foldl
    (fun acc i =>
      (acc.1 + |fs.getD i 0|,
        if fs.length - nLast ≤ i then acc.2 + |fs.getD i 0| else acc.2))
    (0, 0)

/-- `SimpleVad::Detect`. -/
def detect (cfg : VadConfig) (samples : List ℚ) : VadResult :=
  let n := samples.length
  let nLast := cfg.sample_rate * cfg.window_ms / 1000
  if nLast ≥ n then {}
  else
    let filtered :=
      if cfg.freq_threshold > 0 then
        applyHighPassFilter samples cfg.freq_threshold (cfg.sample_rate : ℚ)
      else samples
    let e := energyPair nLast filtered
    { speech_ended :=
        decide (e.2 / (nLast : ℚ) ≤ cfg.energy_threshold * (e.1 / (n : ℚ))),
      energy_all := e.1 / (n : ℚ),
      energy_last := e.2 / (nLast : ℚ) }

theorem foldl_prod_split {α β γ : Type} (f : α → γ → α) (g : β → γ → β) (l : List γ) :
    ∀ (a : α) (b : β),
      l.foldl (fun acc x => (f acc.1 x, g acc.2 x)) (a, b) = (l.foldl f a, l.foldl g b) := by
  induction l with
  | nil => intro a b; rfl
  | cons x l' ih =>
    intro a b
    rw [List.foldl_cons, List.foldl_cons, List.foldl_cons]
    exact ih (f a x) (g b x)

theorem foldl_add_map (h : ℕ → ℚ) (l : List ℕ) :
    ∀ c : ℚ, l.foldl (fun a x => a + h x) c = c + (l.map h).sum := by
  induction l with
  | nil => intro c; simp
  | cons x l' ih =>
    intro c
    rw [List.foldl_cons, List.map_cons, List.sum_cons, ih (c + h x)]
    ring

theorem foldl_const_of_skip (g : ℚ → ℕ → ℚ) (l : List ℕ)
    (hskip : ∀ b x, x ∈ l → g b x = b) : ∀ b, l.foldl g b = b := by
  induction l with
  | nil => intro b; rfl
  | cons x l' ih =>
    intro b
    rw [List.foldl_cons, hskip b x (List.mem_cons_self x l')]
    exact ih (fun b y hy => hskip b y (List.mem_cons_of_mem x hy)) b

theorem foldl_congr_mem {α β : Type} (l : List β) (f g : α → β → α)
    (h : ∀ a x, x ∈ l → f a x = g a x) : ∀ a, l.foldl f a = l.foldl g a := by
  induction l with
  | nil => intro a; rfl
  | cons x l' ih =>
    intro a
    rw [List.foldl_cons, List.foldl_cons, h a x (List.mem_cons_self x l')]
    exact ih (fun a y hy => h a y (List.mem_cons_of_mem x hy)) (g a x)

theorem map_range_getD (l : List ℚ) :
    (List.range l.length).map (fun i => l.getD i 0) = l := by
  apply List.ext_getElem
  · simp
  · intro i h1 h2
    simp [List.getD_eq_getElem?_getD, List.getElem?_eq_getElem h2]

/-- The energy loop computes the total-sum and final-window-sum of absolute
values. -/
theorem energyPair_spec (nLast : ℕ) (fs : List ℚ) (h : nLast < fs.length) :
    energyPair nLast fs
      = ((fs.map (fun x => |x|)).sum,
         ((fs.drop (fs.length - nLast)).map (fun x => |x|)).sum) := by
  have hsplit0 : energyPair nLast fs
      = ((List.range fs.length).foldl (fun a i => a + |fs.getD i 0|) 0,
         (List.range fs.length).foldl
           (fun b i => if fs.length - nLast ≤ i then b + |fs.getD i 0| else b) 0) :=
    foldl_prod_split (fun a i => a + |fs.getD i 0|)
      (fun b i => if fs.length - nLast ≤ i then b + |fs.getD i 0| else b)
      (List.range fs.length) 0 0
  rw [hsplit0, Prod.mk.injEq]
  have habs : ∀ l : List ℚ, (List.range l.length).map (fun i => |l.getD i 0|)
      = l.map (fun x => |x|) := by
    intro l
    have hrg := map_range_getD l
    calc (List.range l.length).map (fun i => |l.getD i 0|)
        = ((List.range l.length).map (fun i => l.getD i 0)).map (fun x => |x|) := by
          rw [List.map_map]
          rfl
      _ = l.map (fun x => |x|) := by rw [hrg]
  constructor
  · rw [foldl_add_map (fun i => |fs.getD i 0|) (List.range fs.length) 0, habs fs, zero_add]
  · set m := fs.length - nLast with hm
    have hsplit : fs.length = m + nLast := by omega
    have hrange : List.range fs.length
        = List.range m ++ (List.range nLast).map (fun x => m + x) := by
      rw [hsplit]
      exact List.range_add m nLast
    rw [hrange, List.foldl_append]
    have hfirst : (List.range m).foldl
        (fun b i => if m ≤ i then b + |fs.getD i 0| else b) 0 = 0 := by
      apply foldl_const_of_skip
      intro b x hx
      rw [List.mem_range] at hx
      rw [if_neg (by omega)]
    rw [hfirst, List.foldl_map]
    have hfold : (List.range nLast).foldl
        (fun b j => if m ≤ m + j then b + |fs.getD (m + j) 0| else b) 0
        = (List.range nLast).foldl (fun b j => b + |fs.getD (m + j) 0|) 0 :=
      foldl_congr_mem (List.range nLast) _ _
        (fun b j _ => if_pos (Nat.le_add_right m j)) 0
    rw [hfold, foldl_add_map (fun j => |fs.getD (m + j) 0|) (List.range nLast) 0, zero_add]
    have hdl : (fs.drop m).length = nLast := by
      rw [List.length_drop]
      omega
    have hgd : ∀ j : ℕ, (fs.drop m).getD j 0 = fs.getD (m + j) 0 := by
      intro j
      simp [List.getD_eq_getElem?_getD, List.getElem?_drop]
    have hmap2 : (List.range nLast).map (fun j => |fs.getD (m + j) 0|)
        = (fs.drop m).map (fun x => |x|) := by
      rw [← habs (fs.drop m), hdl]
      apply List.map_congr_left
      intro j hj
      rw [hgd j]
    rw [hmap2]

/-- Spec-side restatement of the VAD claim, written from the spec's words:
if the window sample count is at least the total count, the default result
(`speech_ended = false`) is returned; otherwise `energy_all` is the mean of
absolute values of the (optionally high-pass filtered) samples over the whole
input, `energy_last` is the mean over the final window of
`sample_rate * window_ms / 1000` samples, and
`speech_ended = (energy_last ≤ energy_threshold * energy_all)`. -/
def specVadDetect (cfg : VadConfig) (samples : List ℚ) : VadResult :=
  let n := samples.length
  let nLast := cfg.sample_rate * cfg.window_ms / 1000
  if nLast ≥ n then {}
  else
    let filtered :=
      if cfg.freq_threshold > 0 then
        applyHighPassFilter samples cfg.freq_threshold (cfg.sample_rate : ℚ)
      else samples
    let eAll := (filtered.map (fun x => |x|)).sum / (n : ℚ)
    let eLast := ((filtered.drop (n - nLast)).map (fun x => |x|)).sum / (nLast : ℚ)
    { speech_ended := decide (eLast ≤ cfg.energy_threshold * eAll),
      energy_all := eAll,
      energy_last := eLast }

/-- **C3.** `SimpleVad::Detect` agrees with the spec's description: when the
window sample count `sample_rate * window_ms / 1000` is at least the number of
samples it returns the default result, whose `speech_ended` is `false` (no
error in this total model); otherwise it returns the means of absolute values
of the optionally filtered samples over the whole input and over the final
window, and compares them against the threshold ratio. -/
theorem vad_detect_spec (cfg : VadConfig) (samples : List ℚ) :
    detect cfg samples = specVadDetect cfg samples ∧
    (samples.length ≤ cfg.sample_rate * cfg.window_ms / 1000 →
      (detect cfg samples).speech_ended = false) := by
  have hguard : ∀ hle : samples.length ≤ cfg.sample_rate * cfg.window_ms / 1000,
      detect cfg samples = {} := by
    intro hle
    unfold detect
    rw [if_pos hle]
  constructor
  · by_cases hg : samples.length ≤ cfg.sample_rate * cfg.window_ms / 1000
    · rw [hguard hg]
      unfold specVadDetect
      rw [if_pos hg]
    · have hlt : cfg.sample_rate * cfg.window_ms / 1000 < samples.length := by omega
      have hlen : (if cfg.freq_threshold > 0 then
          applyHighPassFilter samples cfg.freq_threshold (cfg.sample_rate : ℚ)
        else samples).length = samples.length := by
        by_cases hf : cfg.freq_threshold > 0
        · rw [if_pos hf, length_applyHighPassFilter]
        · rw [if_neg hf]
      unfold detect specVadDetect
      rw [if_neg hg, if_neg hg]
      simp only []
      have he := energyPair_spec (cfg.sample_rate * cfg.window_ms / 1000)
        (if cfg.freq_threshold > 0 then
          applyHighPassFilter samples cfg.freq_threshold (cfg.sample_rate : ℚ)
        else samples) (by rw [hlen]; exact hlt)
      rw [he, hlen]
  · intro hle
    rw [hguard hle]

/-- Witness for C3: with the default config (window of 16000 samples) and only
four samples, the window guard fires and `Detect` reports `speech_ended =
false`. -/
theorem vad_detect_spec_witness :
    ([(1 : ℚ), -1, 1, 1].length ≤
        ({} : VadConfig).sample_rate * ({} : VadConfig).window_ms / 1000) ∧
    (detect ({} : VadConfig) [(1 : ℚ), -1, 1, 1]).speech_ended = false :=
  ⟨by decide, (vad_detect_spec ({} : VadConfig) [(1 : ℚ), -1, 1, 1]).2 (by decide)⟩

/-! ### SdlAudioCapture ring buffer (src/audio_capture/sdl/sdl_audio_capture.cpp)

The circular buffer is modelled as a total function `ℕ → ℚ` over cell
indices, together with the capacity, write position and fill length; float
samples are exact rationals.  `AudioCallback` is modelled under the
assumption that capture is running (the early-return on `!running_` merely
drops the block, and the claim is about blocks that are written), and
`GetAudio` with `duration_ms ≤ 0` reads `sample_rate * buffer_duration_ms /
1000` samples — exactly the capacity — clamped to the fill length.  The
mutex serialises callbacks and reads, so a pure sequential model is
faithful. -/

structure SdlRing where
  cap : ℕ
  buf : ℕ → ℚ
  pos : ℕ
  len : ℕ

/-- Buffer state after `Init`: capacity `sample_rate * buffer_duration_ms /
1000`, zeroed storage (`std::vector::resize` zero-fills), `pos = len = 0`. -/
def initRing (rate dur : ℕ) : SdlRing :=
  { cap := rate * dur / 1000, buf := fun _ => 0, pos := 0, len := 0 }

/-- The two-`memcpy` circular write of `AudioCallback`: `k` samples taken
from `g` are stored starting at `pos`, wrapping at `cap`; then
`pos ← (pos + k) % cap` and `len ← min (len + k) cap`. -/
def writeRing (st : SdlRing) (k : ℕ) (g : ℕ → ℚ) : SdlRing :=
  { st with
    buf :=
      if st.pos + k > st.cap then
        fun j =>
          if st.pos ≤ j ∧ j < st.cap then g (j - st.pos)
          else if j < k - (st.cap - st.pos) then g (st.cap - st.pos + j)
          else st.buf j
      else
        fun j => if st.pos ≤ j ∧ j < st.pos + k then g (j - st.pos) else st.buf j,
    pos := (st.pos + k) % st.cap,
    len := min (st.len + k) st.cap }

/-- `SdlAudioCapture::AudioCallback`: a block larger than the buffer is
truncated to its tail (`src += n_samples - samples_to_copy`). -/
def audioCallback (st : SdlRing) (block : List ℚ) : SdlRing :=
  if block.length > st.cap then
    writeRing st st.cap (fun i => (block.drop (block.length - st.cap)).getD i 0)
  else
    writeRing st block.length (fun i => block.getD i 0)

/-- `SdlAudioCapture::GetAudio` with `duration_ms ≤ 0`: read
`min cap len` samples ending at `pos`, reconstructed across the wrap. -/
def getAudioFull (st : SdlRing) : List ℚ :=
  let n := min st.cap st.len
  let s0 := if st.pos < n then st.pos + st.cap - n else st.pos - n
  if s0 + n > st.cap then
    ((List.range (st.cap - s0)).map (fun i => st.buf (s0 + i))) ++
      ((List.range (n - (st.cap - s0))).map (fun i => st.buf i))
  else
    (List.range n).map (fun i => st.buf (s0 + i))

/-- The last `m` elements of `l`. -/
def suffixN (l : List ℚ) (m : ℕ) : List ℚ := l.drop (l.length - m)

theorem writeRing_buf (st : SdlRing) (k : ℕ) (g : ℕ → ℚ) :
    (writeRing st k g).buf =
      if st.pos + k > st.cap then
        fun j =>
          if st.pos ≤ j ∧ j < st.cap then g (j - st.pos)
          else if j < k - (st.cap - st.pos) then g (st.cap - st.pos + j)
          else st.buf j
      else
        fun j => if st.pos ≤ j ∧ j < st.pos + k then g (j - st.pos) else st.buf j := rfl

theorem writeRing_pos (st : SdlRing) (k : ℕ) (g : ℕ → ℚ) :
    (writeRing st k g).pos = (st.pos + k) % st.cap := rfl

theorem writeRing_len (st : SdlRing) (k : ℕ) (g : ℕ → ℚ) :
    (writeRing st k g).len = min (st.len + k) st.cap := rfl

theorem writeRing_cap (st : SdlRing) (k : ℕ) (g : ℕ → ℚ) :
    (writeRing st k g).cap = st.cap := rfl

theorem add_mod_cases (p u c : ℕ) (hp : p < c) (hu : u < c) :
    (p + u) % c = if p + u < c then p + u else p + u - c := by
  by_cases h : p + u < c
  · rw [if_pos h, Nat.mod_eq_of_lt h]
  · rw [if_neg h]
    conv_lhs => rw [show p + u = (p + u - c) + c from by omega]
    rw [Nat.add_mod_right, Nat.mod_eq_of_lt (by omega)]

/-- Cells at offsets `0 ≤ t < k` from `pos` receive the new samples. -/
theorem writeRing_hit (st : SdlRing) (k : ℕ) (g : ℕ → ℚ)
    (hp : st.pos < st.cap) (hk : k ≤ st.cap) (t : ℕ) (ht : t < k) :
    (writeRing st k g).buf ((st.pos + t) % st.cap) = g t := by
  rw [writeRing_buf, add_mod_cases st.pos t st.cap hp (by omega)]
  by_cases hw : st.pos + k > st.cap
  · rw [if_pos hw]
    by_cases hlt : st.pos + t < st.cap
    · rw [if_pos hlt,
        if_pos (show st.pos ≤ st.pos + t ∧ st.pos + t < st.cap from ⟨Nat.le_add_right _ _, hlt⟩)]
      congr 1
      omega
    · rw [if_neg hlt,
        if_neg (show ¬(st.pos ≤ st.pos + t - st.cap ∧ st.pos + t - st.cap < st.cap) from
          by omega),
        if_pos (show st.pos + t - st.cap < k - (st.cap - st.pos) from by omega)]
      congr 1
      omega
  · rw [if_neg hw]
    have hlt : st.pos + t < st.cap := by omega
    rw [if_pos hlt,
      if_pos (show st.pos ≤ st.pos + t ∧ st.pos + t < st.pos + k from by omega)]
    congr 1
    omega

/-- Cells at offsets `k ≤ u < cap` from `pos` are untouched. -/
theorem writeRing_miss (st : SdlRing) (k : ℕ) (g : ℕ → ℚ)
    (hp : st.pos < st.cap) (hk : k ≤ st.cap) (u : ℕ) (hu1 : k ≤ u) (hu2 : u < st.cap) :
    (writeRing st k g).buf ((st.pos + u) % st.cap) = st.buf ((st.pos + u) % st.cap) := by
  rw [writeRing_buf, add_mod_cases st.pos u st.cap hp hu2]
  by_cases hw : st.pos + k > st.cap
  · rw [if_pos hw]
    by_cases hlt : st.pos + u < st.cap
    · exfalso
      omega
    · rw [if_neg hlt,
        if_neg (show ¬(st.pos ≤ st.pos + u - st.cap ∧ st.pos + u - st.cap < st.cap) from
          by omega),
        if_neg (show ¬(st.pos + u - st.cap < k - (st.cap - st.pos)) from by omega)]
  · rw [if_neg hw]
    by_cases hlt : st.pos + u < st.cap
    · rw [if_pos hlt,
        if_neg (show ¬(st.pos ≤ st.pos + u ∧ st.pos + u < st.pos + k) from by omega)]
    · rw [if_neg hlt,
        if_neg (show ¬(st.pos ≤ st.pos + u - st.cap ∧ st.pos + u - st.cap < st.pos + k) from
          by omega)]

theorem audioCallback_eq_write (st : SdlRing) (b : List ℚ) :
    audioCallback st b
      = writeRing st (min b.length st.cap)
          (fun i => (b.drop (b.length - st.cap)).getD i 0) := by
  by_cases hn : b.length > st.cap
  · unfold audioCallback
    rw [if_pos hn, min_eq_right (le_of_lt hn)]
  · unfold audioCallback
    rw [if_neg hn, min_eq_left (by omega), Nat.sub_eq_zero_of_le (by omega), List.drop_zero]

theorem getD_drop (l : List ℚ) (d i : ℕ) : (l.drop d).getD i 0 = l.getD (d + i) 0 := by
  simp [List.getD_eq_getElem?_getD, List.getElem?_drop]

theorem getD_append_right (l₁ l₂ : List ℚ) (t : ℕ) :
    (l₁ ++ l₂).getD (l₁.length + t) 0 = l₂.getD t 0 := by
  simp [List.getD_eq_getElem?_getD, List.getElem?_append_right (Nat.le_add_right _ _)]

theorem getD_append_left (l₁ l₂ : List ℚ) (j : ℕ) (h : j < l₁.length) :
    (l₁ ++ l₂).getD j 0 = l₁.getD j 0 := by
  simp [List.getD_eq_getElem?_getD, List.getElem?_append_left h]

theorem getD_take (l : List ℚ) (m i : ℕ) (h : i < m) :
    (l.take m).getD i 0 = l.getD i 0 := by
  simp [List.getD_eq_getElem?_getD, List.getElem?_take, h]

theorem map_range_getD_of_len (l : List ℚ) (m : ℕ) (h : l.length = m) :
    (List.range m).map (fun i => l.getD i 0) = l := by
  subst h
  exact map_range_getD l

theorem map_range_getD_take (l : List ℚ) (m : ℕ) (h : m ≤ l.length) :
    (List.range m).map (fun i => l.getD i 0) = l.take m := by
  have htl : (l.take m).length = m := by rw [List.length_take]; omega
  rw [← map_range_getD_of_len (l.take m) m htl]
  apply List.map_congr_left
  intro i hi
  rw [List.mem_range] at hi
  exact (getD_take l m i hi).symm

/-- The ring-buffer invariant tying the state after a sequence of writes to
the effective history `he` (concatenation of the truncated blocks): the fill
length is `min |he| cap`, the write position is `|he| % cap`, and the cells
ending at `pos` hold the last `len` samples of `he` in order. -/
structure RingInv (cap : ℕ) (st : SdlRing) (he : List ℚ) : Prop where
  hc : st.cap = cap
  hp : st.pos = he.length % cap
  hl : st.len = min he.length cap
  hb : ∀ i, i < st.len →
    st.buf ((st.pos + (cap - st.len) + i) % cap) = (suffixN he st.len).getD i 0

theorem ringInv_step (cap : ℕ) (hcap : 0 < cap) (st : SdlRing) (he b : List ℚ)
    (hinv : RingInv cap st he) :
    RingInv cap (audioCallback st b) (he ++ b.drop (b.length - cap)) := by
  obtain ⟨hc, hp, hl, hcont⟩ := hinv
  subst hc
  rw [audioCallback_eq_write]
  set k := min b.length st.cap with hkdef
  set tb := b.drop (b.length - st.cap) with htbdef
  have htb : tb.length = k := by
    rw [htbdef, List.length_drop, hkdef]
    omega
  have hk : k ≤ st.cap := by omega
  have hpos : st.pos < st.cap := by rw [hp]; exact Nat.mod_lt _ hcap
  have hlle : st.len ≤ st.cap := by omega
  have hlhe : st.len ≤ he.length := by omega
  refine ⟨rfl, ?_, ?_, ?_⟩
  · rw [writeRing_pos, hp, Nat.mod_add_mod, List.length_append, htb]
  · rw [writeRing_len, hl, List.length_append, htb]
    omega
  · intro i hi
    rw [writeRing_len] at hi
    rw [writeRing_pos, writeRing_len]
    rw [Nat.add_assoc, Nat.mod_add_mod]
    have hk'len : k ≤ min (st.len + k) st.cap := by omega
    have hlen'le : min (st.len + k) st.cap ≤ st.cap := by omega
    have hlen'he : min (st.len + k) st.cap ≤ he.length + k := by omega
    by_cases hcase : min (st.len + k) st.cap - k ≤ i
    · rw [show st.pos + k + (st.cap - min (st.len + k) st.cap + i)
            = st.pos + (i - (min (st.len + k) st.cap - k)) + st.cap from by omega,
          Nat.add_mod_right,
          writeRing_hit st k (fun i => tb.getD i 0) hpos hk
            (i - (min (st.len + k) st.cap - k)) (by omega)]
      have hR : (suffixN (he ++ tb) (min (st.len + k) st.cap)).getD i 0
          = tb.getD (i - (min (st.len + k) st.cap - k)) 0 := by
        rw [suffixN, List.length_append, htb, getD_drop,
            show he.length + k - min (st.len + k) st.cap + i
              = he.length + (i - (min (st.len + k) st.cap - k)) from by omega,
            getD_append_right]
      rw [hR]
    · rw [show st.pos + k + (st.cap - min (st.len + k) st.cap + i)
            = st.pos + (k + (st.cap - min (st.len + k) st.cap) + i) from by omega,
          writeRing_miss st k (fun i => tb.getD i 0) hpos hk
            (k + (st.cap - min (st.len + k) st.cap) + i) (by omega) (by omega)]
      have hcont' := hcont (st.len - (min (st.len + k) st.cap - k) + i) (by omega)
      rw [show st.pos + (st.cap - st.len) + (st.len - (min (st.len + k) st.cap - k) + i)
            = st.pos + (k + (st.cap - min (st.len + k) st.cap) + i) from by omega] at hcont'
      rw [hcont']
      have hL : (suffixN he st.len).getD (st.len - (min (st.len + k) st.cap - k) + i) 0
          = he.getD (he.length + k - min (st.len + k) st.cap + i) 0 := by
        rw [suffixN, getD_drop,
            show he.length - st.len + (st.len - (min (st.len + k) st.cap - k) + i)
              = he.length + k - min (st.len + k) st.cap + i from by omega]
      have hR : (suffixN (he ++ tb) (min (st.len + k) st.cap)).getD i 0
          = he.getD (he.length + k - min (st.len + k) st.cap + i) 0 := by
        rw [suffixN, List.length_append, htb, getD_drop,
            getD_append_left he tb _ (by omega)]
      rw [hL, hR]

theorem ringInv_fold (cap : ℕ) (hcap : 0 < cap) :
    ∀ (blocks : List (List ℚ)) (st : SdlRing) (he : List ℚ), RingInv cap st he →
      RingInv cap (blocks.foldl audioCallback st)
        (he ++ ((blocks.map (fun b => b.drop (b.length - cap))).flatten)) := by
  intro blocks
  induction blocks with
  | nil =>
    intro st he h
    simpa using h
  | cons b bs ih =>
    intro st he h
    rw [List.foldl_cons, List.map_cons, List.flatten_cons, ← List.append_assoc]
    exact ih (audioCallback st b) (he ++ b.drop (b.length - cap))
      (ringInv_step cap hcap st he b h)

theorem getAudioFull_inv (cap : ℕ) (hcap : 0 < cap) (st : SdlRing) (he : List ℚ)
    (hinv : RingInv cap st he) : getAudioFull st = suffixN he (min he.length cap) := by
  obtain ⟨hc, hp, hl, hcont⟩ := hinv
  subst hc
  have hpos : st.pos < st.cap := by rw [hp]; exact Nat.mod_lt _ hcap
  have hlcap : st.len ≤ st.cap := by omega
  have hlhe : st.len ≤ he.length := by omega
  have hmin : min st.cap st.len = st.len := by omega
  have hS : (suffixN he st.len).length = st.len := by
    rw [suffixN, List.length_drop]
    omega
  rw [← hl]
  simp only [getAudioFull]
  rw [hmin]
  by_cases hps : st.pos < st.len
  · rw [if_pos hps]
    by_cases hp0 : st.pos = 0
    · rw [if_neg (show ¬ st.pos + st.cap - st.len + st.len > st.cap from by omega)]
      have hmapc : ∀ i ∈ List.range st.len,
          st.buf (st.pos + st.cap - st.len + i) = (suffixN he st.len).getD i 0 := by
        intro i hi
        rw [List.mem_range] at hi
        have h1 : st.pos + st.cap - st.len + i = (st.pos + (st.cap - st.len) + i) % st.cap := by
          rw [show st.pos + (st.cap - st.len) + i = st.pos + st.cap - st.len + i from by omega,
              Nat.mod_eq_of_lt (by omega)]
        rw [h1, hcont i hi]
      rw [List.map_congr_left hmapc, map_range_getD_of_len _ _ hS]
    · rw [if_pos (show st.pos + st.cap - st.len + st.len > st.cap from by omega)]
      rw [show st.cap - (st.pos + st.cap - st.len) = st.len - st.pos from by omega,
          show st.len - (st.len - st.pos) = st.pos from by omega]
      have hS1 : (List.range (st.len - st.pos)).map
            (fun i => st.buf (st.pos + st.cap - st.len + i))
          = (suffixN he st.len).take (st.len - st.pos) := by
        rw [← map_range_getD_take _ _ (show st.len - st.pos ≤ (suffixN he st.len).length from
          by rw [hS]; omega)]
        apply List.map_congr_left
        intro i hi
        rw [List.mem_range] at hi
        have h1 : st.pos + st.cap - st.len + i = (st.pos + (st.cap - st.len) + i) % st.cap := by
          rw [show st.pos + (st.cap - st.len) + i = st.pos + st.cap - st.len + i from by omega,
              Nat.mod_eq_of_lt (by omega)]
        rw [h1, hcont i (by omega)]
      have hS2 : (List.range st.pos).map (fun i => st.buf i)
          = (suffixN he st.len).drop (st.len - st.pos) := by
        have hdl : ((suffixN he st.len).drop (st.len - st.pos)).length = st.pos := by
          rw [List.length_drop, hS]
          omega
        rw [← map_range_getD_of_len _ _ hdl]
        apply List.map_congr_left
        intro i hi
        rw [List.mem_range] at hi
        have hc2 := hcont (st.len - st.pos + i) (by omega)
        rw [show st.pos + (st.cap - st.len) + (st.len - st.pos + i) = i + st.cap from by omega,
            Nat.add_mod_right, Nat.mod_eq_of_lt (by omega)] at hc2
        rw [getD_drop]
        exact hc2
      rw [hS1, hS2, List.take_append_drop]
  · rw [if_neg hps]
    rw [if_neg (show ¬ st.pos - st.len + st.len > st.cap from by omega)]
    have hmapc : ∀ i ∈ List.range st.len,
        st.buf (st.pos - st.len + i) = (suffixN he st.len).getD i 0 := by
      intro i hi
      rw [List.mem_range] at hi
      have h1 : st.pos - st.len + i = (st.pos + (st.cap - st.len) + i) % st.cap := by
        rw [show st.pos + (st.cap - st.len) + i = st.pos - st.len + i + st.cap from by omega,
            Nat.add_mod_right, Nat.mod_eq_of_lt (by omega)]
      rw [h1, hcont i hi]
    rw [List.map_congr_left hmapc, map_range_getD_of_len _ _ hS]

theorem suffixN_append_right (l₁ l₂ : List ℚ) (m : ℕ) (h : m ≤ l₂.length) :
    suffixN (l₁ ++ l₂) m = suffixN l₂ m := by
  rw [suffixN, suffixN, List.length_append,
      show l₁.length + l₂.length - m = l₁.length + (l₂.length - m) from by omega,
      List.drop_append]

theorem suffixN_append_big (l₁ l₂ : List ℚ) (m : ℕ) (h : l₂.length ≤ m)
    (h2 : m ≤ l₁.length + l₂.length) :
    suffixN (l₁ ++ l₂) m = suffixN l₁ (m - l₂.length) ++ l₂ := by
  rw [suffixN, suffixN, List.length_append,
      List.drop_append_of_le_length (show l₁.length + l₂.length - m ≤ l₁.length from by omega),
      show l₁.length + l₂.length - m = l₁.length - (m - l₂.length) from by omega]

theorem suffixN_suffixN (l : List ℚ) (n m : ℕ) (hm : m ≤ n) (hn : n ≤ l.length) :
    suffixN (suffixN l n) m = suffixN l m := by
  rw [suffixN, suffixN, suffixN, List.length_drop, List.drop_drop,
      show l.length - n + (l.length - (l.length - n) - m) = l.length - m from by omega]

/-- One write step preserves the correspondence between the effective
(truncated) history and the raw history: the retrievable window and its
contents agree. -/
theorem rel_step (cap : ℕ) (x y b : List ℚ)
    (h1 : min x.length cap = min y.length cap)
    (h2 : suffixN x (min x.length cap) = suffixN y (min y.length cap)) :
    min (x ++ b.drop (b.length - cap)).length cap = min (y ++ b).length cap ∧
    suffixN (x ++ b.drop (b.length - cap)) (min (x ++ b.drop (b.length - cap)).length cap)
      = suffixN (y ++ b) (min (y ++ b).length cap) := by
  have htb : (b.drop (b.length - cap)).length = min b.length cap := by
    rw [List.length_drop]
    omega
  have hlx : (x ++ b.drop (b.length - cap)).length = x.length + min b.length cap := by
    rw [List.length_append, htb]
  have hly : (y ++ b).length = y.length + b.length := List.length_append _ _
  have hmin : min (x.length + min b.length cap) cap = min (y.length + b.length) cap := by
    omega
  constructor
  · rw [hlx, hly, hmin]
  · rw [hlx, hly, hmin]
    by_cases hcase : min (y.length + b.length) cap ≤ min b.length cap
    · rw [suffixN_append_right x _ _ (by rw [htb]; omega),
          suffixN_append_right y b _ (by omega)]
      have hTb : b.drop (b.length - cap) = suffixN b (min b.length cap) := by
        rw [suffixN, show b.length - min b.length cap = b.length - cap from by omega]
      rw [hTb, suffixN_suffixN b (min b.length cap) _ hcase (min_le_left _ _)]
    · have hbs : b.length < cap := by omega
      have hTb : b.drop (b.length - cap) = b := by
        rw [show b.length - cap = 0 from by omega, List.drop_zero]
      rw [hTb]
      rw [suffixN_append_big x b _ (by omega) (by omega),
          suffixN_append_big y b _ (by omega) (by omega)]
      have hmx : min (y.length + b.length) cap - b.length ≤ min x.length cap := by omega
      have hx3 : suffixN x (min (y.length + b.length) cap - b.length)
          = suffixN (suffixN x (min x.length cap)) (min (y.length + b.length) cap - b.length) :=
        (suffixN_suffixN x (min x.length cap) _ hmx (min_le_left _ _)).symm
      have hy3 : suffixN y (min (y.length + b.length) cap - b.length)
          = suffixN (suffixN y (min y.length cap)) (min (y.length + b.length) cap - b.length) :=
        (suffixN_suffixN y (min y.length cap) _ (by omega) (min_le_left _ _)).symm
      rw [hx3, hy3, h2]

theorem suffix_transfer (cap : ℕ) :
    ∀ (blocks : List (List ℚ)) (x y : List ℚ),
      min x.length cap = min y.length cap →
      suffixN x (min x.length cap) = suffixN y (min y.length cap) →
      min (x ++ (blocks.map (fun b => b.drop (b.length - cap))).flatten).length cap
          = min (y ++ blocks.flatten).length cap ∧
      suffixN (x ++ (blocks.map (fun b => b.drop (b.length - cap))).flatten)
          (min (x ++ (blocks.map (fun b => b.drop (b.length - cap))).flatten).length cap)
        = suffixN (y ++ blocks.flatten) (min (y ++ blocks.flatten).length cap) := by
  intro blocks
  induction blocks with
  | nil =>
    intro x y h1 h2
    simpa using ⟨h1, h2⟩
  | cons b bs ih =>
    intro x y h1 h2
    rw [List.map_cons, List.flatten_cons, List.flatten_cons,
        ← List.append_assoc, ← List.append_assoc]
    exact ih (x ++ b.drop (b.length - cap)) (y ++ b) (rel_step cap x y b h1 h2).1
      (rel_step cap x y b h1 h2).2

/-- **C2.** The circular capture buffer: the capacity is
`sample_rate * buffer_duration_ms / 1000`; after any sequence of
producer-callback writes with no intervening reads or clears, reading the
full buffer returns exactly `min W cap` samples — the last `min W cap`
samples of the raw written stream, in order, reconstructed across the wrap
point (oversize single blocks are truncated to their tail by the callback,
which preserves exactly this suffix). -/
theorem ring_buffer_spec (rate dur : ℕ) (blocks : List (List ℚ))
    (hcap : 0 < rate * dur / 1000) :
    (blocks.foldl audioCallback (initRing rate dur)).cap = rate * dur / 1000 ∧
    (getAudioFull (blocks.foldl audioCallback (initRing rate dur))).length
      = min blocks.flatten.length (rate * dur / 1000) ∧
    getAudioFull (blocks.foldl audioCallback (initRing rate dur))
      = blocks.flatten.drop
          (blocks.flatten.length - min blocks.flatten.length (rate * dur / 1000)) := by
  set cap := rate * dur / 1000 with hcapdef
  have hbase : RingInv cap (initRing rate dur) [] := by
    refine ⟨rfl, ?_, ?_, ?_⟩
    · simp [initRing]
    · simp [initRing]
    · intro i hi
      simp [initRing] at hi
  have hinv := ringInv_fold cap hcap blocks (initRing rate dur) [] hbase
  rw [List.nil_append] at hinv
  have hread := getAudioFull_inv cap hcap _ _ hinv
  have htrans := suffix_transfer cap blocks [] [] rfl rfl
  rw [List.nil_append, List.nil_append] at htrans
  obtain ⟨hm, hsfx⟩ := htrans
  rw [hsfx] at hread
  refine ⟨hinv.hc, ?_, ?_⟩
  · rw [hread, suffixN, List.length_drop]
    omega
  · rw [hread, suffixN]

/-- Witness for C2: capacity `3` (1000 Hz × 3 ms), seven samples written in
three blocks (the middle one oversize), full read returns the last three. -/
theorem ring_buffer_spec_witness :
    0 < 1000 * 3 / 1000 ∧
    getAudioFull ([[(1 : ℚ), 2], [3, 4, 5, 6], [7]].foldl audioCallback (initRing 1000 3))
      = [[(1 : ℚ), 2], [3, 4, 5, 6], [7]].flatten.drop
          ([[(1 : ℚ), 2], [3, 4, 5, 6], [7]].flatten.length
            - min [[(1 : ℚ), 2], [3, 4, 5, 6], [7]].flatten.length (1000 * 3 / 1000)) :=
  ⟨by decide, (ring_buffer_spec 1000 3 [[(1 : ℚ), 2], [3, 4, 5, 6], [7]] (by decide)).2.2⟩
end VoiceCommand
